import Mathlib

/-!
Verification of the dependency-aware table ordering routine of
`dgraph/cmd/migrate/topo_sort.go` (package `migrate`).

The Go code is embedded shallowly:

* a Go `map[string]*TableInfo` becomes an association list `Tables`
  (`List (String × TableInfo)`); the list order stands for one arbitrary
  iteration order of the Go map, so every theorem quantified over `Tables`
  covers all possible map iteration orders;
* the `nodeColor` Go map becomes a total function `String → NodeColor`,
  reading a missing key as `WHITE` (the Go zero value of `NodeColor`);
* the recursive function `visit` is embedded with an explicit fuel
  parameter; `VisitError.outOfFuel` is an artifact of that embedding and is
  proved unreachable for the fuel used by `topoSortTables`;
* a Go runtime nil-pointer dereference (`tables[name]` is `nil` and its
  field `referencedTables` is read) is modelled by `VisitError.nilDeref`;
* `return nil, err` in Go is modelled by a result whose `collector` is `[]`
  and whose `err` is `some e`.
-/

namespace Migrate

/-- The three visitation colors of `topo_sort.go` (`WHITE`, `GREY`, `BLACK`
declared with `iota`; `WHITE` is the zero value). -/
inductive NodeColor where
  | WHITE
  | GREY
  | BLACK
deriving DecidableEq, Repr

/-- Modelled from the spec: `TableInfo` is declared elsewhere in the
`migrate` package (not among the provided files); the ordering code uses
only its `referencedTables` field, a set of referenced table names
(spec §3: "a set of referenced-table names", no ordering requirement).
The set is embedded as a list of names in one arbitrary iteration order. -/
structure TableInfo where
  referencedTables : List String
deriving DecidableEq, Repr

/-- A Go `map[string]*TableInfo` embedded as an association list. -/
abbrev Tables := List (String × TableInfo)

/-- The key set of the table map, in iteration order. -/
def tkeys (tables : Tables) : List String := tables.map Prod.fst

/-- Go map read `tables[name]`: `none` models the `nil` pointer returned
for an absent key. -/
def lookupTable (tables : Tables) (name : String) : Option TableInfo :=
  (tables.find? (fun p => p.fst == name)).map Prod.snd

/-- Failure outcomes of a run.  `cycleErr t` is the Go error
`fmt.Errorf("found reference loops while visiting table %s", curTable)`;
`nilDeref t` models the Go runtime panic from dereferencing the `nil`
`*TableInfo` obtained for an unknown table name; `outOfFuel` is an artifact
of the fuel embedding, proved unreachable for the fuel `topoSortTables`
supplies. -/
inductive VisitError where
  | cycleErr (table : String)
  | nilDeref (table : String)
  | outOfFuel
deriving DecidableEq, Repr

/-- The mutable state the Go code reaches through its two map arguments:
the (never written) `tables` map and the `nodeColor` map. -/
structure DfsState where
  tables : Tables
  nodeColor : String → NodeColor

/-- Result of a call to `visit` (or of the loop of `topoSortTables`): the
state of the two maps after the call, plus the Go return pair
`([]string, error)`, with a `nil` slice rendered as `[]`. -/
structure VisitResult where
  state : DfsState
  collector : List String
  err : Option VisitError

/-- The `for childTable := range tables[curTable].referencedTables` loop of
`visit`, abstracted over the recursive call `f`: visit each child in turn,
threading the state and the collector; on the first error return
`(nil, err)` as the Go code does. -/
def childLoop (f : DfsState → String → List String → VisitResult) :
    DfsState → List String → List String → VisitResult
  | s, [], collector => ⟨s, collector, none⟩
  | s, childTable :: rest, collector =>
    let r := f s childTable collector
    match r.err with
    | some e => ⟨r.state, [], some e⟩
    | none => childLoop f r.state rest r.collector

/-- The Go write `nodeColor[curTable] = GREY`. -/
def greyed (s : DfsState) (t : String) : DfsState :=
  ⟨s.tables, Function.update s.nodeColor t .GREY⟩

/-- The Go write `nodeColor[curTable] = BLACK`. -/
def blacked (s : DfsState) (t : String) : DfsState :=
  ⟨s.tables, Function.update s.nodeColor t .BLACK⟩

/-- The recursive `visit` of `topo_sort.go`, with an explicit fuel
parameter bounding the recursion depth.  On `WHITE`: mark the table `GREY`,
visit every referenced table, then mark it `BLACK` and append it to the
collector.  On `GREY`: fail with the reference-loop error.  On `BLACK`:
return the collector unchanged.  Reading `tables[curTable]` for a name that
is not a key yields Go `nil`, and the subsequent field access is the
modelled `nilDeref` panic. -/
def visit : Nat → DfsState → String → List String → VisitResult
  | 0, s, _, _ => ⟨s, [], some .outOfFuel⟩
  | fuel + 1, s, curTable, collector =>
    match s.nodeColor curTable with
    | .WHITE =>
      let s1 : DfsState := greyed s curTable
      match lookupTable s1.tables curTable with
      | none => ⟨s1, [], some (.nilDeref curTable)⟩
      | some info =>
        let r := childLoop (visit fuel) s1 info.referencedTables collector
        match r.err with
        | some e => ⟨r.state, [], some e⟩
        | none => ⟨blacked r.state curTable, r.collector ++ [curTable], none⟩
    | .GREY => ⟨s, [], some (.cycleErr curTable)⟩
    | .BLACK => ⟨s, collector, none⟩

/-- The initialization loop of `topoSortTables`: `nodeColor` starts as an
empty Go map (every read yields the zero value `WHITE`), and each key is
then explicitly set to `WHITE`. -/
def initColors (tables : Tables) : String → NodeColor :=
  tables.foldl (fun nc p => Function.update nc p.fst .WHITE) (fun _ => .WHITE)

/-- The `for table := range tables` loop of `topoSortTables`: visit every
key, threading state and collector; on the first error return `(nil, err)`. -/
def topoLoop (fuel : Nat) : DfsState → List String → List String → VisitResult
  | s, [], collector => ⟨s, collector, none⟩
  | s, table :: rest, collector =>
    let r := visit fuel s table collector
    match r.err with
    | some e => ⟨r.state, [], some e⟩
    | none => topoLoop fuel r.state rest r.collector

/-- `topoSortTables` of `topo_sort.go`: initialize every table to `WHITE`,
visit every table, and return the Go pair `([]string, error)`.  The fuel
`tables.length + 1` strictly exceeds the number of keys, which bounds the
recursion depth of `visit`; it is proved sufficient below. -/
def topoSortTables (tables : Tables) : List String × Option VisitError :=
  let r := topoLoop (tables.length + 1) ⟨tables, initColors tables⟩ (tkeys tables) []
  (r.collector, r.err)

/-! ### Graph-level notions -/

/-- Table `a` references table `b`: `b` belongs to the `referencedTables`
set of the entry the map lookup yields for `a`. -/
def edge (tables : Tables) (a b : String) : Prop :=
  ∃ info, lookupTable tables a = some info ∧ b ∈ info.referencedTables

/-- Nonempty directed paths in the dependency graph. -/
inductive Reach (tables : Tables) : String → String → Prop
  | single {a b : String} : edge tables a b → Reach tables a b
  | cons {a b c : String} : edge tables a b → Reach tables b c → Reach tables a c

/-- The graph has no directed cycle (of any length, including length 1). -/
def Acyclic (tables : Tables) : Prop := ∀ a, ¬ Reach tables a a

/-- Every name referenced by any table is a key of the table map
(the caller precondition of spec §4.1). -/
def Closed (tables : Tables) : Prop :=
  ∀ p ∈ tables, ∀ b ∈ p.snd.referencedTables, b ∈ tkeys tables

/-- A faithful image of a Go map: keys unique; together with the caller
precondition that every referenced name is a key. -/
def WellFormed (tables : Tables) : Prop :=
  (tkeys tables).Nodup ∧ Closed tables

/-- Rank of a color; colors only ever advance in rank during a run. -/
def colorRank : NodeColor → Nat
  | .WHITE => 0
  | .GREY => 1
  | .BLACK => 2

/-- Pointwise color advancement between two color maps. -/
def colorLE (nc nc2 : String → NodeColor) : Prop :=
  ∀ x, colorRank (nc x) ≤ colorRank (nc2 x)

/-! ### Basic lemmas about lookups, edges and colors -/

theorem mem_tkeys_iff {tables : Tables} {a : String} :
    a ∈ tkeys tables ↔ ∃ p ∈ tables, p.fst = a := by
  simp [tkeys, List.mem_map]

theorem lookupTable_isSome_of_mem {tables : Tables} {a : String}
    (ha : a ∈ tkeys tables) : ∃ info, lookupTable tables a = some info := by
  obtain ⟨p, hp, hpa⟩ := mem_tkeys_iff.mp ha
  have hs : (tables.find? (fun q => q.fst == a)).isSome = true := by
    rw [List.find?_isSome]
    exact ⟨p, hp, by simp [hpa]⟩
  obtain ⟨q, hq⟩ := Option.isSome_iff_exists.mp hs
  exact ⟨q.snd, by simp [lookupTable, hq]⟩

theorem pair_mem_of_lookupTable {tables : Tables} {a : String} {info : TableInfo}
    (h : lookupTable tables a = some info) : (a, info) ∈ tables := by
  simp only [lookupTable, Option.map_eq_some'] at h
  obtain ⟨q, hq, hqi⟩ := h
  have hmem := List.mem_of_find?_eq_some hq
  have hpa := List.find?_some hq
  have : q.fst = a := by simpa using hpa
  have : q = (a, info) := by
    cases q; simp only [Prod.mk.injEq]; exact ⟨this, hqi⟩
  rwa [this] at hmem

theorem mem_tkeys_of_lookupTable {tables : Tables} {a : String} {info : TableInfo}
    (h : lookupTable tables a = some info) : a ∈ tkeys tables :=
  mem_tkeys_iff.mpr ⟨(a, info), pair_mem_of_lookupTable h, rfl⟩

theorem edge_source_mem {tables : Tables} {a b : String} (h : edge tables a b) :
    a ∈ tkeys tables := by
  obtain ⟨info, hlk, _⟩ := h
  exact mem_tkeys_of_lookupTable hlk

theorem edge_target_mem {tables : Tables} {a b : String} (hc : Closed tables)
    (h : edge tables a b) : b ∈ tkeys tables := by
  obtain ⟨info, hlk, hb⟩ := h
  exact hc (a, info) (pair_mem_of_lookupTable hlk) b hb

/-- With unique keys, the lookup of a present entry yields that entry. -/
theorem lookupTable_eq_of_mem {tables : Tables} (hnd : (tkeys tables).Nodup)
    {p : String × TableInfo} (hp : p ∈ tables) :
    lookupTable tables p.fst = some p.snd := by
  induction tables with
  | nil => cases hp
  | cons q rest ih =>
    have hnd2 : q.fst ∉ tkeys rest ∧ (tkeys rest).Nodup := by
      simpa [tkeys] using hnd
    rcases List.mem_cons.mp hp with rfl | hp2
    · simp [lookupTable]
    · have hne : (q.fst == p.fst) = false := by
        simp only [beq_eq_false_iff_ne, ne_eq]
        intro he
        exact hnd2.1 (he ▸ mem_tkeys_iff.mpr ⟨p, hp2, rfl⟩)
      simp only [lookupTable, List.find?, hne]
      exact ih hnd2.2 hp2

theorem edge_of_pair_mem {tables : Tables} {p : String × TableInfo} {b : String}
    (hnd : (tkeys tables).Nodup) (hp : p ∈ tables) (hb : b ∈ p.snd.referencedTables) :
    edge tables p.fst b :=
  ⟨p.snd, lookupTable_eq_of_mem hnd hp, hb⟩

theorem Reach.snoc {tables : Tables} {a b c : String}
    (h : Reach tables a b) (h2 : edge tables b c) : Reach tables a c := by
  induction h with
  | single h1 => exact .cons h1 (.single h2)
  | cons h1 _ ih => exact .cons h1 (ih h2)

/-- A name on the grey stack reaches the head of the stack (or is the head):
the stack is chained by parent-to-child edges. -/
theorem reach_head_of_mem_stack {tables : Tables} {g : List String} {x p : String}
    (hchain : List.Chain' (fun u v => edge tables v u) g)
    (hx : x ∈ g) (hp : g.head? = some p) : x = p ∨ Reach tables x p := by
  induction g generalizing p with
  | nil => cases hx
  | cons y ys ih =>
    rw [List.head?_cons, Option.some_inj] at hp
    subst hp
    rcases List.mem_cons.mp hx with rfl | hx2
    · exact Or.inl rfl
    · cases ys with
      | nil => cases hx2
      | cons z zs =>
        have hcz : edge tables z y ∧ List.Chain' (fun u v => edge tables v u) (z :: zs) :=
          List.chain'_cons.mp hchain
        rcases ih hcz.2 hx2 rfl with rfl | hr
        · exact Or.inr (Reach.single hcz.1)
        · exact Or.inr (hr.snoc hcz.1)

theorem colorLE_refl (nc : String → NodeColor) : colorLE nc nc := fun _ => le_refl _

theorem colorLE_trans {nc1 nc2 nc3 : String → NodeColor}
    (h1 : colorLE nc1 nc2) (h2 : colorLE nc2 nc3) : colorLE nc1 nc3 :=
  fun x => le_trans (h1 x) (h2 x)

theorem colorRank_le_two (v : NodeColor) : colorRank v ≤ 2 := by
  cases v <;> simp [colorRank]

theorem colorLE_update {nc : String → NodeColor} {t : String} {v : NodeColor}
    (h : colorRank (nc t) ≤ colorRank v) : colorLE nc (Function.update nc t v) := by
  intro x
  by_cases hx : x = t
  · subst hx; simpa [Function.update]
  · simp [Function.update, hx]

theorem colorLE.black {nc nc2 : String → NodeColor} {x : String}
    (h : colorLE nc nc2) (hx : nc x = .BLACK) : nc2 x = .BLACK := by
  have h2 := h x
  rw [hx] at h2
  cases hv : nc2 x with
  | WHITE => rw [hv] at h2; simp [colorRank] at h2
  | GREY => rw [hv] at h2; simp [colorRank] at h2
  | BLACK => rfl

theorem colorLE.white_rev {nc nc2 : String → NodeColor} {x : String}
    (h : colorLE nc nc2) (hx : nc2 x = .WHITE) : nc x = .WHITE := by
  have h2 := h x
  rw [hx] at h2
  cases hv : nc x with
  | WHITE => rfl
  | GREY => rw [hv] at h2; simp [colorRank] at h2
  | BLACK => rw [hv] at h2; simp [colorRank] at h2

/-! ### Unfolding equations -/

@[simp] theorem greyed_tables (s : DfsState) (t : String) :
    (greyed s t).tables = s.tables := rfl

@[simp] theorem greyed_nodeColor (s : DfsState) (t : String) :
    (greyed s t).nodeColor = Function.update s.nodeColor t .GREY := rfl

@[simp] theorem blacked_tables (s : DfsState) (t : String) :
    (blacked s t).tables = s.tables := rfl

@[simp] theorem blacked_nodeColor (s : DfsState) (t : String) :
    (blacked s t).nodeColor = Function.update s.nodeColor t .BLACK := rfl

theorem childLoop_nil (f : DfsState → String → List String → VisitResult)
    (s : DfsState) (c : List String) : childLoop f s [] c = ⟨s, c, none⟩ := rfl

theorem childLoop_cons_err {f : DfsState → String → List String → VisitResult}
    {s : DfsState} {b : String} {c : List String} {e : VisitError}
    (h : (f s b c).err = some e) (rest : List String) :
    childLoop f s (b :: rest) c = ⟨(f s b c).state, [], some e⟩ := by
  simp only [childLoop, h]

theorem childLoop_cons_ok {f : DfsState → String → List String → VisitResult}
    {s : DfsState} {b : String} {c : List String}
    (h : (f s b c).err = none) (rest : List String) :
    childLoop f s (b :: rest) c = childLoop f (f s b c).state rest (f s b c).collector := by
  simp only [childLoop, h]

theorem visit_zero (s : DfsState) (t : String) (c : List String) :
    visit 0 s t c = ⟨s, [], some .outOfFuel⟩ := rfl

theorem visit_grey {s : DfsState} {t : String} (h : s.nodeColor t = .GREY)
    (fuel : Nat) (c : List String) :
    visit (fuel + 1) s t c = ⟨s, [], some (.cycleErr t)⟩ := by
  simp only [visit, h]

theorem visit_black {s : DfsState} {t : String} (h : s.nodeColor t = .BLACK)
    (fuel : Nat) (c : List String) :
    visit (fuel + 1) s t c = ⟨s, c, none⟩ := by
  simp only [visit, h]

theorem visit_white_deref {s : DfsState} {t : String} (h : s.nodeColor t = .WHITE)
    (hlk : lookupTable s.tables t = none) (fuel : Nat) (c : List String) :
    visit (fuel + 1) s t c = ⟨greyed s t, [], some (.nilDeref t)⟩ := by
  simp only [visit, h, greyed_tables, hlk]

theorem visit_white_err {s : DfsState} {t : String} {info : TableInfo} {e : VisitError}
    (h : s.nodeColor t = .WHITE) (hlk : lookupTable s.tables t = some info)
    {fuel : Nat} {c : List String}
    (hce : (childLoop (visit fuel) (greyed s t) info.referencedTables c).err = some e) :
    visit (fuel + 1) s t c =
      ⟨(childLoop (visit fuel) (greyed s t) info.referencedTables c).state, [], some e⟩ := by
  simp only [visit, h, greyed_tables, hlk, hce]

theorem visit_white_ok {s : DfsState} {t : String} {info : TableInfo}
    (h : s.nodeColor t = .WHITE) (hlk : lookupTable s.tables t = some info)
    {fuel : Nat} {c : List String}
    (hce : (childLoop (visit fuel) (greyed s t) info.referencedTables c).err = none) :
    visit (fuel + 1) s t c =
      ⟨blacked (childLoop (visit fuel) (greyed s t) info.referencedTables c).state t,
        (childLoop (visit fuel) (greyed s t) info.referencedTables c).collector ++ [t],
        none⟩ := by
  simp only [visit, h, greyed_tables, hlk, hce]

theorem topoLoop_nil (fuel : Nat) (s : DfsState) (c : List String) :
    topoLoop fuel s [] c = ⟨s, c, none⟩ := rfl

theorem topoLoop_cons_err {fuel : Nat} {s : DfsState} {k : String} {c : List String}
    {e : VisitError} (h : (visit fuel s k c).err = some e) (rest : List String) :
    topoLoop fuel s (k :: rest) c = ⟨(visit fuel s k c).state, [], some e⟩ := by
  simp only [topoLoop, h]

theorem topoLoop_cons_ok {fuel : Nat} {s : DfsState} {k : String} {c : List String}
    (h : (visit fuel s k c).err = none) (rest : List String) :
    topoLoop fuel s (k :: rest) c =
      topoLoop fuel (visit fuel s k c).state rest (visit fuel s k c).collector := by
  simp only [topoLoop, h]

/-! ### The graph is never mutated (frame property) -/

theorem childLoop_frame (f : DfsState → String → List String → VisitResult)
    (hf : ∀ s t c, (f s t c).state.tables = s.tables) :
    ∀ (children : List String) (s : DfsState) (c : List String),
      (childLoop f s children c).state.tables = s.tables := by
  intro children
  induction children with
  | nil => intro s c; rfl
  | cons b rest ih =>
    intro s c
    cases hre : (f s b c).err with
    | some e => rw [childLoop_cons_err hre]; exact hf s b c
    | none => rw [childLoop_cons_ok hre, ih]; exact hf s b c

theorem visit_frame : ∀ (fuel : Nat) (s : DfsState) (t : String) (c : List String),
    (visit fuel s t c).state.tables = s.tables := by
  intro fuel
  induction fuel with
  | zero => intro s t c; rfl
  | succ n ih =>
    intro s t c
    cases hcol : s.nodeColor t with
    | GREY => rw [visit_grey hcol]
    | BLACK => rw [visit_black hcol]
    | WHITE =>
      cases hlk : lookupTable s.tables t with
      | none => rw [visit_white_deref hcol hlk]; rfl
      | some info =>
        cases hce : (childLoop (visit n) (greyed s t) info.referencedTables c).err with
        | some e =>
          rw [visit_white_err hcol hlk hce]
          show (childLoop (visit n) (greyed s t) info.referencedTables c).state.tables = s.tables
          rw [childLoop_frame (visit n) ih]
          rfl
        | none =>
          rw [visit_white_ok hcol hlk hce]
          show (blacked (childLoop (visit n) (greyed s t) info.referencedTables c).state
            t).tables = s.tables
          rw [blacked_tables, childLoop_frame (visit n) ih]
          rfl

theorem topoLoop_frame (fuel : Nat) :
    ∀ (keys : List String) (s : DfsState) (c : List String),
      (topoLoop fuel s keys c).state.tables = s.tables := by
  intro keys
  induction keys with
  | nil => intro s c; rfl
  | cons k rest ih =>
    intro s c
    cases hre : (visit fuel s k c).err with
    | some e => rw [topoLoop_cons_err hre]; exact visit_frame fuel s k c
    | none => rw [topoLoop_cons_ok hre, ih]; exact visit_frame fuel s k c

/-! ### Colors only advance -/

theorem childLoop_mono (f : DfsState → String → List String → VisitResult)
    (hf : ∀ s t c, colorLE s.nodeColor (f s t c).state.nodeColor) :
    ∀ (children : List String) (s : DfsState) (c : List String),
      colorLE s.nodeColor (childLoop f s children c).state.nodeColor := by
  intro children
  induction children with
  | nil => intro s c; exact colorLE_refl _
  | cons b rest ih =>
    intro s c
    cases hre : (f s b c).err with
    | some e => rw [childLoop_cons_err hre]; exact hf s b c
    | none => rw [childLoop_cons_ok hre]; exact colorLE_trans (hf s b c) (ih _ _)

theorem visit_mono : ∀ (fuel : Nat) (s : DfsState) (t : String) (c : List String),
    colorLE s.nodeColor (visit fuel s t c).state.nodeColor := by
  intro fuel
  induction fuel with
  | zero => intro s t c; exact colorLE_refl _
  | succ n ih =>
    intro s t c
    cases hcol : s.nodeColor t with
    | GREY => rw [visit_grey hcol]; exact colorLE_refl _
    | BLACK => rw [visit_black hcol]; exact colorLE_refl _
    | WHITE =>
      have hg : colorLE s.nodeColor (greyed s t).nodeColor := by
        rw [greyed_nodeColor]
        exact colorLE_update (by rw [hcol]; simp [colorRank])
      cases hlk : lookupTable s.tables t with
      | none => rw [visit_white_deref hcol hlk]; exact hg
      | some info =>
        have hcl := childLoop_mono (visit n) ih info.referencedTables (greyed s t) c
        cases hce : (childLoop (visit n) (greyed s t) info.referencedTables c).err with
        | some e =>
          rw [visit_white_err hcol hlk hce]
          exact colorLE_trans hg hcl
        | none =>
          rw [visit_white_ok hcol hlk hce]
          refine colorLE_trans hg (colorLE_trans hcl ?_)
          show colorLE _ (blacked _ t).nodeColor
          rw [blacked_nodeColor]
          exact colorLE_update (le_trans (colorRank_le_two _) (by simp [colorRank]))

theorem topoLoop_mono (fuel : Nat) :
    ∀ (keys : List String) (s : DfsState) (c : List String),
      colorLE s.nodeColor (topoLoop fuel s keys c).state.nodeColor := by
  intro keys
  induction keys with
  | nil => intro s c; exact colorLE_refl _
  | cons k rest ih =>
    intro s c
    cases hre : (visit fuel s k c).err with
    | some e => rw [topoLoop_cons_err hre]; exact visit_mono fuel s k c
    | none => rw [topoLoop_cons_ok hre]; exact colorLE_trans (visit_mono fuel s k c) (ih _ _)

/-! ### The fuel of the embedding is sufficient -/

/-- Number of distinct keys of the table map still colored `WHITE`;
the recursion depth of `visit` is bounded by it. -/
def whiteCount (tables : Tables) (nc : String → NodeColor) : Nat :=
  ((tkeys tables).dedup.filter (fun k => decide (nc k = NodeColor.WHITE))).length

theorem filter_length_mono {l : List String} {p q : String → Bool}
    (h : ∀ x, p x = true → q x = true) :
    (l.filter p).length ≤ (l.filter q).length := by
  induction l with
  | nil => simp
  | cons a l ih =>
    by_cases hpa : p a = true
    · rw [List.filter_cons, if_pos hpa, List.filter_cons, if_pos (h a hpa)]
      simpa using ih
    · rw [List.filter_cons, if_neg hpa, List.filter_cons]
      by_cases hqa : q a = true
      · rw [if_pos hqa]
        exact le_trans ih (by simp)
      · rw [if_neg hqa]
        exact ih

theorem whiteCount_mono {tables : Tables} {nc nc2 : String → NodeColor}
    (h : colorLE nc nc2) : whiteCount tables nc2 ≤ whiteCount tables nc := by
  refine filter_length_mono ?_
  intro x hx
  rw [decide_eq_true_eq] at hx ⊢
  exact h.white_rev hx

theorem filter_update_lt (l : List String) (nc : String → NodeColor) (t : String)
    (ht : t ∈ l) (hw : nc t = .WHITE) :
    (l.filter (fun k => decide (Function.update nc t NodeColor.GREY k = NodeColor.WHITE))).length <
      (l.filter (fun k => decide (nc k = NodeColor.WHITE))).length := by
  induction l with
  | nil => cases ht
  | cons a l ih =>
    by_cases ha : a = t
    · subst ha
      have h1 : (decide (Function.update nc a NodeColor.GREY a = NodeColor.WHITE)) = false := by
        simp [Function.update]
      have h2 : (decide (nc a = NodeColor.WHITE)) = true := by simp [hw]
      rw [List.filter_cons, if_neg (by simp [h1]), List.filter_cons, if_pos h2]
      have hle : (l.filter (fun k =>
          decide (Function.update nc a NodeColor.GREY k = NodeColor.WHITE))).length ≤
          (l.filter (fun k => decide (nc k = NodeColor.WHITE))).length := by
        refine filter_length_mono ?_
        intro x hx
        rw [decide_eq_true_eq] at hx ⊢
        by_cases hxa : x = a
        · subst hxa; rw [Function.update_same] at hx; cases hx
        · rwa [Function.update_noteq hxa] at hx
      simpa using Nat.lt_succ_of_le hle
    · have ht2 : t ∈ l := by
        rcases List.mem_cons.mp ht with h | h
        · exact absurd h.symm ha
        · exact h
      have hstep := ih ht2
      have hsame : (decide (Function.update nc t NodeColor.GREY a = NodeColor.WHITE)) =
          (decide (nc a = NodeColor.WHITE)) := by
        rw [Function.update_noteq ha]
      rw [List.filter_cons, List.filter_cons, hsame]
      by_cases hqa : (decide (nc a = NodeColor.WHITE)) = true
      · rw [if_pos hqa, if_pos hqa]
        simpa using hstep
      · rw [if_neg hqa, if_neg hqa]
        exact hstep

theorem whiteCount_grey_lt {tables : Tables} {nc : String → NodeColor} {t : String}
    (ht : t ∈ tkeys tables) (hw : nc t = .WHITE) :
    whiteCount tables (Function.update nc t .GREY) < whiteCount tables nc :=
  filter_update_lt _ _ _ (List.mem_dedup.mpr ht) hw

theorem whiteCount_le_length (tables : Tables) (nc : String → NodeColor) :
    whiteCount tables nc ≤ tables.length := by
  refine le_trans (List.length_filter_le _ _) (le_trans (List.dedup_sublist _).length_le ?_)
  simp [tkeys]

theorem childLoop_noFuel (fuel : Nat)
    (ih : ∀ (s : DfsState) (t : String) (c : List String),
      whiteCount s.tables s.nodeColor < fuel → (visit fuel s t c).err ≠ some .outOfFuel) :
    ∀ (children : List String) (s : DfsState) (c : List String),
      whiteCount s.tables s.nodeColor < fuel →
      (childLoop (visit fuel) s children c).err ≠ some .outOfFuel := by
  intro children
  induction children with
  | nil => intro s c h; rw [childLoop_nil]; simp
  | cons b rest ihc =>
    intro s c hwc
    cases hre : (visit fuel s b c).err with
    | some e =>
      rw [childLoop_cons_err hre]
      intro hcontra
      apply ih s b c hwc
      rw [hre]
      simpa using hcontra
    | none =>
      rw [childLoop_cons_ok hre]
      apply ihc
      rw [visit_frame]
      exact lt_of_le_of_lt (whiteCount_mono (visit_mono fuel s b c)) hwc

theorem visit_noFuel : ∀ (fuel : Nat) (s : DfsState) (t : String) (c : List String),
    whiteCount s.tables s.nodeColor < fuel → (visit fuel s t c).err ≠ some .outOfFuel := by
  intro fuel
  induction fuel with
  | zero => intro s t c h; exact absurd h (Nat.not_lt_zero _)
  | succ n ih =>
    intro s t c hwc
    cases hcol : s.nodeColor t with
    | GREY => rw [visit_grey hcol]; simp
    | BLACK => rw [visit_black hcol]; simp
    | WHITE =>
      cases hlk : lookupTable s.tables t with
      | none => rw [visit_white_deref hcol hlk]; simp
      | some info =>
        have ht : t ∈ tkeys s.tables := mem_tkeys_of_lookupTable hlk
        have hlt : whiteCount s.tables (Function.update s.nodeColor t .GREY) < n := by
          have h1 := whiteCount_grey_lt ht hcol
          omega
        have hcld := childLoop_noFuel n ih info.referencedTables (greyed s t) c (by
          rw [greyed_tables, greyed_nodeColor]; exact hlt)
        cases hce : (childLoop (visit n) (greyed s t) info.referencedTables c).err with
        | some e =>
          rw [visit_white_err hcol hlk hce]
          intro hcontra
          apply hcld
          rw [hce]
          simpa using hcontra
        | none => rw [visit_white_ok hcol hlk hce]; simp

theorem topoLoop_noFuel (fuel : Nat) :
    ∀ (keys : List String) (s : DfsState) (c : List String),
      whiteCount s.tables s.nodeColor < fuel →
      (topoLoop fuel s keys c).err ≠ some .outOfFuel := by
  intro keys
  induction keys with
  | nil => intro s c h; rw [topoLoop_nil]; simp
  | cons k rest ih =>
    intro s c hwc
    cases hre : (visit fuel s k c).err with
    | some e =>
      rw [topoLoop_cons_err hre]
      intro hcontra
      apply visit_noFuel fuel s k c hwc
      rw [hre]
      simpa using hcontra
    | none =>
      rw [topoLoop_cons_ok hre]
      apply ih
      rw [visit_frame]
      exact lt_of_le_of_lt (whiteCount_mono (visit_mono fuel s k c)) hwc

/-- The color map built by the initialization loop of `topoSortTables` is
constantly `WHITE` (the Go zero value is `WHITE` as well). -/
theorem initColors_apply (tables : Tables) (x : String) :
    initColors tables x = .WHITE := by
  suffices h : ∀ (l : List (String × TableInfo)) (nc : String → NodeColor),
      (∀ y, nc y = .WHITE) →
      ∀ y, (l.foldl (fun nc2 p => Function.update nc2 p.fst .WHITE) nc) y = .WHITE by
    exact h tables _ (fun _ => rfl) x
  intro l
  induction l with
  | nil => intro nc h y; exact h y
  | cons p l ih =>
    intro nc h y
    refine ih _ ?_ y
    intro z
    by_cases hz : z = p.fst
    · subst hz; simp only [Function.update_same]
    · simp only [Function.update_noteq hz]; exact h z

/-- `topoSortTables` never exhausts its fuel: the embedded recursion depth
bound `tables.length + 1` is sufficient on every input. -/
theorem topoSortTables_noFuel (tables : Tables) :
    (topoSortTables tables).snd ≠ some VisitError.outOfFuel := by
  have h := topoLoop_noFuel (tables.length + 1) (tkeys tables)
    ⟨tables, initColors tables⟩ []
    (Nat.lt_succ_of_le (whiteCount_le_length _ _))
  exact h

/-! ### The run invariant of the traversal -/

/-- Invariant threaded through a run, relative to the ghost stack `g` of
tables currently in progress (`GREY`), most recently entered first:
the collector holds exactly the `BLACK` tables, without duplicates, in an
order where every referenced table precedes its referrer; every collected
name is a key; the `GREY` tables are exactly the stack; and consecutive
stack entries are joined by dependency edges (each entry references the one
pushed after it). -/
structure Inv (tables : Tables) (g : List String) (nc : String → NodeColor)
    (collector : List String) : Prop where
  blackMem : ∀ x, nc x = .BLACK ↔ x ∈ collector
  nodup : collector.Nodup
  topo : ∀ a b, edge tables a b → a ∈ collector → [b, a].Sublist collector
  keysOk : ∀ x ∈ collector, x ∈ tkeys tables
  greyIff : ∀ x, nc x = .GREY ↔ x ∈ g
  stackChain : List.Chain' (fun u v => edge tables v u) g

/-- Entering the `WHITE` branch: color the table `GREY` and push it on the
ghost stack. -/
theorem Inv.push {tables : Tables} {g : List String} {nc : String → NodeColor}
    {c : List String} {t : String} (hinv : Inv tables g nc c) (hcol : nc t = .WHITE)
    (hconn : ∀ p, g.head? = some p → edge tables p t) :
    Inv tables (t :: g) (Function.update nc t .GREY) c := by
  refine ⟨?_, hinv.nodup, hinv.topo, hinv.keysOk, ?_, ?_⟩
  · intro x
    by_cases hx : x = t
    · subst hx
      rw [Function.update_same]
      constructor
      · intro h; cases h
      · intro hmem
        have hb := (hinv.blackMem x).mpr hmem
        rw [hcol] at hb; cases hb
    · rw [Function.update_noteq hx]
      exact hinv.blackMem x
  · intro x
    by_cases hx : x = t
    · subst hx
      rw [Function.update_same]
      simp
    · rw [Function.update_noteq hx, hinv.greyIff x]
      simp [List.mem_cons, hx]
  · cases g with
    | nil => simp
    | cons p g2 => exact List.chain'_cons.mpr ⟨hconn p rfl, hinv.stackChain⟩

/-- Completing the `WHITE` branch: all referenced tables are `BLACK`, so
the table is colored `BLACK`, appended to the collector, and popped off the
ghost stack. -/
theorem Inv.pop {tables : Tables} {g : List String} {nc2 : String → NodeColor}
    {c2 : List String} {t : String} {info : TableInfo}
    (hinv2 : Inv tables (t :: g) nc2 c2) (htg : t ∉ g)
    (hlk : lookupTable tables t = some info)
    (hkids : ∀ b ∈ info.referencedTables, nc2 b = .BLACK) :
    Inv tables g (Function.update nc2 t .BLACK) (c2 ++ [t]) := by
  have htc2 : nc2 t = .GREY := (hinv2.greyIff t).mpr (List.mem_cons_self t g)
  have htnot : t ∉ c2 := by
    intro hmem
    have hb := (hinv2.blackMem t).mpr hmem
    rw [htc2] at hb; cases hb
  refine ⟨?_, ?_, ?_, ?_, ?_, ?_⟩
  · intro x
    by_cases hx : x = t
    · subst hx
      rw [Function.update_same]
      simp
    · rw [Function.update_noteq hx, hinv2.blackMem x]
      simp [List.mem_append, hx]
  · rw [List.nodup_append]
    refine ⟨hinv2.nodup, List.nodup_singleton t, ?_⟩
    intro a ha hat
    rw [List.mem_singleton] at hat
    subst hat
    exact htnot ha
  · intro a b hedge hmem
    rcases List.mem_append.mp hmem with hac | hat
    · exact (hinv2.topo a b hedge hac).trans (List.sublist_append_left _ _)
    · rw [List.mem_singleton] at hat
      subst hat
      obtain ⟨info2, hlk2, hbref⟩ := hedge
      rw [hlk] at hlk2
      injection hlk2 with h2
      subst h2
      have hbc : b ∈ c2 := (hinv2.blackMem b).mp (hkids b hbref)
      have h1 : [b].Sublist c2 := List.singleton_sublist.mpr hbc
      have h3 := h1.append_right [a]
      simpa using h3
  · intro x hx
    rcases List.mem_append.mp hx with h | h
    · exact hinv2.keysOk x h
    · rw [List.mem_singleton] at h
      subst h
      exact mem_tkeys_of_lookupTable hlk
  · intro x
    by_cases hx : x = t
    · subst hx
      rw [Function.update_same]
      constructor
      · intro h; cases h
      · intro h; exact absurd h htg
    · rw [Function.update_noteq hx, hinv2.greyIff x]
      simp [List.mem_cons, hx]
  · exact hinv2.stackChain.tail

/-- Statement of the invariant-preservation property of `visit` at a given
fuel: a successful call preserves the invariant, only appends to the
collector, and leaves the visited table `BLACK`. -/
def VisitOk (fuel : Nat) : Prop :=
  ∀ (tables : Tables) (s : DfsState) (t : String) (c g : List String),
    s.tables = tables →
    Inv tables g s.nodeColor c →
    (∀ p, g.head? = some p → edge tables p t) →
    (visit fuel s t c).err = none →
    Inv tables g (visit fuel s t c).state.nodeColor (visit fuel s t c).collector ∧
      (∃ ext, (visit fuel s t c).collector = c ++ ext) ∧
      (visit fuel s t c).state.nodeColor t = .BLACK

theorem childLoop_ok (fuel : Nat) (ih : VisitOk fuel) :
    ∀ (children : List String) (tables : Tables) (s : DfsState) (c g : List String)
      (parent : String),
      s.tables = tables →
      Inv tables g s.nodeColor c →
      g.head? = some parent →
      (∀ b ∈ children, edge tables parent b) →
      (childLoop (visit fuel) s children c).err = none →
      Inv tables g (childLoop (visit fuel) s children c).state.nodeColor
          (childLoop (visit fuel) s children c).collector ∧
        (∃ ext, (childLoop (visit fuel) s children c).collector = c ++ ext) ∧
        (∀ b ∈ children, (childLoop (visit fuel) s children c).state.nodeColor b = .BLACK) := by
  intro children
  induction children with
  | nil =>
    intro tables s c g parent hts hinv hhead hch herr
    rw [childLoop_nil]
    exact ⟨hinv, ⟨[], by simp⟩, by simp⟩
  | cons b rest ihc =>
    intro tables s c g parent hts hinv hhead hch herr
    cases hre : (visit fuel s b c).err with
    | some e =>
      rw [childLoop_cons_err hre] at herr
      simp at herr
    | none =>
      have hconnb : ∀ p, g.head? = some p → edge tables p b := by
        intro p hp
        rw [hhead] at hp
        have hpe : parent = p := Option.some_inj.mp hp
        subst hpe
        exact hch b (List.mem_cons_self b rest)
      obtain ⟨hinv1, ⟨ext1, hext1⟩, hb1⟩ := ih tables s b c g hts hinv hconnb hre
      rw [childLoop_cons_ok hre] at herr ⊢
      have hts1 : (visit fuel s b c).state.tables = tables := by rw [visit_frame]; exact hts
      obtain ⟨hinv2, ⟨ext2, hext2⟩, hb2all⟩ :=
        ihc tables (visit fuel s b c).state (visit fuel s b c).collector g parent
          hts1 hinv1 hhead (fun b2 hb2 => hch b2 (List.mem_cons_of_mem _ hb2)) herr
      refine ⟨hinv2, ⟨ext1 ++ ext2, by rw [hext2, hext1, List.append_assoc]⟩, ?_⟩
      intro b2 hb2
      rcases List.mem_cons.mp hb2 with rfl | hb2r
      · have hmono := childLoop_mono (visit fuel) (visit_mono fuel) rest
          (visit fuel s b2 c).state (visit fuel s b2 c).collector
        exact hmono.black hb1
      · exact hb2all b2 hb2r

theorem visit_ok : ∀ fuel, VisitOk fuel := by
  intro fuel
  induction fuel with
  | zero =>
    intro tables s t c g hts hinv hconn herr
    rw [visit_zero] at herr
    simp at herr
  | succ n ih =>
    intro tables s t c g hts hinv hconn herr
    cases hcol : s.nodeColor t with
    | GREY =>
      rw [visit_grey hcol] at herr
      simp at herr
    | BLACK =>
      rw [visit_black hcol] at herr ⊢
      exact ⟨hinv, ⟨[], by simp⟩, hcol⟩
    | WHITE =>
      cases hlk : lookupTable tables t with
      | none =>
        rw [visit_white_deref hcol (by rw [hts]; exact hlk)] at herr
        simp at herr
      | some info =>
        have hlks : lookupTable s.tables t = some info := by rw [hts]; exact hlk
        have htg : t ∉ g := by
          intro hmem
          have hg := (hinv.greyIff t).mpr hmem
          rw [hcol] at hg; cases hg
        have hinv1 : Inv tables (t :: g) (greyed s t).nodeColor c := by
          rw [greyed_nodeColor]
          exact hinv.push hcol hconn
        have hch : ∀ b ∈ info.referencedTables, edge tables t b :=
          fun b hb => ⟨info, hlk, hb⟩
        cases hce : (childLoop (visit n) (greyed s t) info.referencedTables c).err with
        | some e =>
          rw [visit_white_err hcol hlks hce] at herr
          simp at herr
        | none =>
          have hgt : (greyed s t).tables = tables := by rw [greyed_tables]; exact hts
          obtain ⟨hinv2, ⟨ext, hext⟩, hkidsB⟩ :=
            childLoop_ok n ih info.referencedTables tables (greyed s t) c (t :: g) t
              hgt hinv1 rfl hch hce
          have hpop := Inv.pop hinv2 htg hlk hkidsB
          rw [visit_white_ok hcol hlks hce]
          refine ⟨?_, ⟨ext ++ [t], ?_⟩, ?_⟩
          · show Inv tables g
              (blacked (childLoop (visit n) (greyed s t) info.referencedTables c).state
                t).nodeColor
              ((childLoop (visit n) (greyed s t) info.referencedTables c).collector ++ [t])
            rw [blacked_nodeColor]
            exact hpop
          · show (childLoop (visit n) (greyed s t) info.referencedTables c).collector ++ [t] =
              c ++ (ext ++ [t])
            rw [hext, List.append_assoc]
          · show (blacked (childLoop (visit n) (greyed s t) info.referencedTables c).state
              t).nodeColor t = .BLACK
            rw [blacked_nodeColor, Function.update_same]

theorem topoLoop_ok (fuel : Nat) :
    ∀ (keys : List String) (tables : Tables) (s : DfsState) (c : List String),
      s.tables = tables →
      Inv tables [] s.nodeColor c →
      (topoLoop fuel s keys c).err = none →
      Inv tables [] (topoLoop fuel s keys c).state.nodeColor
          (topoLoop fuel s keys c).collector ∧
        (∃ ext, (topoLoop fuel s keys c).collector = c ++ ext) ∧
        (∀ k ∈ keys, (topoLoop fuel s keys c).state.nodeColor k = .BLACK) := by
  intro keys
  induction keys with
  | nil =>
    intro tables s c hts hinv herr
    rw [topoLoop_nil]
    exact ⟨hinv, ⟨[], by simp⟩, by simp⟩
  | cons k rest ihk =>
    intro tables s c hts hinv herr
    cases hre : (visit fuel s k c).err with
    | some e =>
      rw [topoLoop_cons_err hre] at herr
      simp at herr
    | none =>
      have hconn : ∀ p, ([] : List String).head? = some p → edge tables p k := by
        intro p hp; simp at hp
      obtain ⟨hinv1, ⟨ext1, hext1⟩, hb1⟩ := visit_ok fuel tables s k c [] hts hinv hconn hre
      rw [topoLoop_cons_ok hre] at herr ⊢
      have hts1 : (visit fuel s k c).state.tables = tables := by rw [visit_frame]; exact hts
      obtain ⟨hinv2, ⟨ext2, hext2⟩, hb2all⟩ :=
        ihk tables (visit fuel s k c).state (visit fuel s k c).collector hts1 hinv1 herr
      refine ⟨hinv2, ⟨ext1 ++ ext2, by rw [hext2, hext1, List.append_assoc]⟩, ?_⟩
      intro k2 hk2
      rcases List.mem_cons.mp hk2 with rfl | hk2r
      · have hmono := topoLoop_mono fuel rest (visit fuel s k2 c).state
          (visit fuel s k2 c).collector
        exact hmono.black hb1
      · exact hb2all k2 hk2r

/-! ### Success on well-formed acyclic graphs -/

/-- Statement at a given fuel: `visit` cannot fail on a well-formed acyclic
graph when its recursion bound is large enough. -/
def VisitSucceeds (fuel : Nat) : Prop :=
  ∀ (tables : Tables) (s : DfsState) (t : String) (c g : List String),
    s.tables = tables →
    WellFormed tables →
    Acyclic tables →
    whiteCount tables s.nodeColor < fuel →
    Inv tables g s.nodeColor c →
    (∀ p, g.head? = some p → edge tables p t) →
    t ∈ tkeys tables →
    (visit fuel s t c).err = none

theorem childLoop_succeeds (fuel : Nat) (ih : VisitSucceeds fuel) :
    ∀ (children : List String) (tables : Tables) (s : DfsState) (c g : List String)
      (parent : String),
      s.tables = tables →
      WellFormed tables →
      Acyclic tables →
      whiteCount tables s.nodeColor < fuel →
      Inv tables g s.nodeColor c →
      g.head? = some parent →
      (∀ b ∈ children, edge tables parent b) →
      (childLoop (visit fuel) s children c).err = none := by
  intro children
  induction children with
  | nil =>
    intro tables s c g parent hts hwf hacy hwc hinv hhead hch
    rw [childLoop_nil]
  | cons b rest ihc =>
    intro tables s c g parent hts hwf hacy hwc hinv hhead hch
    have hconnb : ∀ p, g.head? = some p → edge tables p b := by
      intro p hp
      rw [hhead] at hp
      have hpe : parent = p := Option.some_inj.mp hp
      subst hpe
      exact hch b (List.mem_cons_self b rest)
    have hbk : b ∈ tkeys tables :=
      edge_target_mem hwf.2 (hch b (List.mem_cons_self b rest))
    have hre : (visit fuel s b c).err = none :=
      ih tables s b c g hts hwf hacy hwc hinv hconnb hbk
    obtain ⟨hinv1, _, _⟩ := visit_ok fuel tables s b c g hts hinv hconnb hre
    rw [childLoop_cons_ok hre]
    have hts1 : (visit fuel s b c).state.tables = tables := by rw [visit_frame]; exact hts
    refine ihc tables (visit fuel s b c).state (visit fuel s b c).collector g parent
      hts1 hwf hacy ?_ hinv1 hhead (fun b2 hb2 => hch b2 (List.mem_cons_of_mem _ hb2))
    exact lt_of_le_of_lt (whiteCount_mono (visit_mono fuel s b c)) hwc

theorem visit_succeeds : ∀ fuel, VisitSucceeds fuel := by
  intro fuel
  induction fuel with
  | zero =>
    intro tables s t c g hts hwf hacy hwc hinv hconn ht
    exact absurd hwc (Nat.not_lt_zero _)
  | succ n ih =>
    intro tables s t c g hts hwf hacy hwc hinv hconn ht
    cases hcol : s.nodeColor t with
    | BLACK => rw [visit_black hcol]
    | GREY =>
      exfalso
      have htin : t ∈ g := (hinv.greyIff t).mp hcol
      cases g with
      | nil => cases htin
      | cons p g2 =>
        have hpt : edge tables p t := hconn p rfl
        rcases reach_head_of_mem_stack hinv.stackChain htin rfl with rfl | hr
        · exact hacy t (Reach.single hpt)
        · exact hacy t (hr.snoc hpt)
    | WHITE =>
      obtain ⟨info, hlk⟩ := lookupTable_isSome_of_mem ht
      have hlks : lookupTable s.tables t = some info := by rw [hts]; exact hlk
      have hinv1 : Inv tables (t :: g) (greyed s t).nodeColor c := by
        rw [greyed_nodeColor]
        exact hinv.push hcol hconn
      have hch : ∀ b ∈ info.referencedTables, edge tables t b :=
        fun b hb => ⟨info, hlk, hb⟩
      have hgt : (greyed s t).tables = tables := by rw [greyed_tables]; exact hts
      have hwc1 : whiteCount tables (greyed s t).nodeColor < n := by
        rw [greyed_nodeColor]
        have h1 := whiteCount_grey_lt ht hcol
        omega
      have hce : (childLoop (visit n) (greyed s t) info.referencedTables c).err = none :=
        childLoop_succeeds n ih info.referencedTables tables (greyed s t) c (t :: g) t
          hgt hwf hacy hwc1 hinv1 rfl hch
      rw [visit_white_ok hcol hlks hce]

theorem topoLoop_succeeds (fuel : Nat) :
    ∀ (keys : List String) (tables : Tables) (s : DfsState) (c : List String),
      s.tables = tables →
      WellFormed tables →
      Acyclic tables →
      whiteCount tables s.nodeColor < fuel →
      Inv tables [] s.nodeColor c →
      (∀ k ∈ keys, k ∈ tkeys tables) →
      (topoLoop fuel s keys c).err = none := by
  intro keys
  induction keys with
  | nil =>
    intro tables s c hts hwf hacy hwc hinv hk
    rw [topoLoop_nil]
  | cons k rest ihk =>
    intro tables s c hts hwf hacy hwc hinv hk
    have hconn : ∀ p, ([] : List String).head? = some p → edge tables p k := by
      intro p hp; simp at hp
    have hre : (visit fuel s k c).err = none :=
      visit_succeeds fuel tables s k c [] hts hwf hacy hwc hinv hconn
        (hk k (List.mem_cons_self k rest))
    obtain ⟨hinv1, _, _⟩ := visit_ok fuel tables s k c [] hts hinv hconn hre
    rw [topoLoop_cons_ok hre]
    have hts1 : (visit fuel s k c).state.tables = tables := by rw [visit_frame]; exact hts
    refine ihk tables (visit fuel s k c).state (visit fuel s k c).collector hts1 hwf hacy ?_
      hinv1 (fun k2 hk2 => hk k2 (List.mem_cons_of_mem _ hk2))
    exact lt_of_le_of_lt (whiteCount_mono (visit_mono fuel s k c)) hwc

/-! ### A reported reference loop really is a reference loop -/

/-- Statement at a given fuel: when `visit` reports the reference-loop
error naming `w`, the table `w` lies on a directed cycle. -/
def VisitCycle (fuel : Nat) : Prop :=
  ∀ (tables : Tables) (s : DfsState) (t : String) (c g : List String) (w : String),
    s.tables = tables →
    Inv tables g s.nodeColor c →
    (∀ p, g.head? = some p → edge tables p t) →
    (visit fuel s t c).err = some (.cycleErr w) →
    Reach tables w w

theorem childLoop_cycle (fuel : Nat) (ihC : VisitCycle fuel) :
    ∀ (children : List String) (tables : Tables) (s : DfsState) (c g : List String)
      (parent : String) (w : String),
      s.tables = tables →
      Inv tables g s.nodeColor c →
      g.head? = some parent →
      (∀ b ∈ children, edge tables parent b) →
      (childLoop (visit fuel) s children c).err = some (.cycleErr w) →
      Reach tables w w := by
  intro children
  induction children with
  | nil =>
    intro tables s c g parent w hts hinv hhead hch herr
    rw [childLoop_nil] at herr
    simp at herr
  | cons b rest ihc =>
    intro tables s c g parent w hts hinv hhead hch herr
    have hconnb : ∀ p, g.head? = some p → edge tables p b := by
      intro p hp
      rw [hhead] at hp
      have hpe : parent = p := Option.some_inj.mp hp
      subst hpe
      exact hch b (List.mem_cons_self b rest)
    cases hre : (visit fuel s b c).err with
    | some e =>
      rw [childLoop_cons_err hre] at herr
      have hee : e = .cycleErr w := by simpa using herr
      subst hee
      exact ihC tables s b c g w hts hinv hconnb hre
    | none =>
      obtain ⟨hinv1, _, _⟩ := visit_ok fuel tables s b c g hts hinv hconnb hre
      rw [childLoop_cons_ok hre] at herr
      have hts1 : (visit fuel s b c).state.tables = tables := by rw [visit_frame]; exact hts
      exact ihc tables (visit fuel s b c).state (visit fuel s b c).collector g parent w
        hts1 hinv1 hhead (fun b2 hb2 => hch b2 (List.mem_cons_of_mem _ hb2)) herr

theorem visit_cycle : ∀ fuel, VisitCycle fuel := by
  intro fuel
  induction fuel with
  | zero =>
    intro tables s t c g w hts hinv hconn herr
    rw [visit_zero] at herr
    simp at herr
  | succ n ih =>
    intro tables s t c g w hts hinv hconn herr
    cases hcol : s.nodeColor t with
    | BLACK =>
      rw [visit_black hcol] at herr
      simp at herr
    | GREY =>
      rw [visit_grey hcol] at herr
      have htw : t = w := by simpa using herr
      subst htw
      have htin : t ∈ g := (hinv.greyIff t).mp hcol
      cases g with
      | nil => cases htin
      | cons p g2 =>
        have hpt : edge tables p t := hconn p rfl
        rcases reach_head_of_mem_stack hinv.stackChain htin rfl with rfl | hr
        · exact Reach.single hpt
        · exact hr.snoc hpt
    | WHITE =>
      cases hlk : lookupTable tables t with
      | none =>
        rw [visit_white_deref hcol (by rw [hts]; exact hlk)] at herr
        simp at herr
      | some info =>
        have hlks : lookupTable s.tables t = some info := by rw [hts]; exact hlk
        have hinv1 : Inv tables (t :: g) (greyed s t).nodeColor c := by
          rw [greyed_nodeColor]
          exact hinv.push hcol hconn
        have hch : ∀ b ∈ info.referencedTables, edge tables t b :=
          fun b hb => ⟨info, hlk, hb⟩
        have hgt : (greyed s t).tables = tables := by rw [greyed_tables]; exact hts
        cases hce : (childLoop (visit n) (greyed s t) info.referencedTables c).err with
        | some e =>
          rw [visit_white_err hcol hlks hce] at herr
          have hee : e = .cycleErr w := by simpa using herr
          subst hee
          exact childLoop_cycle n ih info.referencedTables tables (greyed s t) c (t :: g)
            t w hgt hinv1 rfl hch hce
        | none =>
          rw [visit_white_ok hcol hlks hce] at herr
          simp at herr

theorem topoLoop_cycle (fuel : Nat) :
    ∀ (keys : List String) (tables : Tables) (s : DfsState) (c : List String) (w : String),
      s.tables = tables →
      Inv tables [] s.nodeColor c →
      (topoLoop fuel s keys c).err = some (.cycleErr w) →
      Reach tables w w := by
  intro keys
  induction keys with
  | nil =>
    intro tables s c w hts hinv herr
    rw [topoLoop_nil] at herr
    simp at herr
  | cons k rest ihk =>
    intro tables s c w hts hinv herr
    have hconn : ∀ p, ([] : List String).head? = some p → edge tables p k := by
      intro p hp; simp at hp
    cases hre : (visit fuel s k c).err with
    | some e =>
      rw [topoLoop_cons_err hre] at herr
      have hee : e = .cycleErr w := by simpa using herr
      subst hee
      exact visit_cycle fuel tables s k c [] w hts hinv hconn hre
    | none =>
      obtain ⟨hinv1, _, _⟩ := visit_ok fuel tables s k c [] hts hinv hconn hre
      rw [topoLoop_cons_ok hre] at herr
      have hts1 : (visit fuel s k c).state.tables = tables := by rw [visit_frame]; exact hts
      exact ihk tables (visit fuel s k c).state (visit fuel s k c).collector w hts1 hinv1 herr

/-! ### No nil dereference on closed graphs -/

/-- Statement at a given fuel: on a graph whose references all resolve,
`visit` on a known table never reaches the nil dereference. -/
def VisitNoDeref (fuel : Nat) : Prop :=
  ∀ (tables : Tables) (s : DfsState) (t : String) (c : List String) (u : String),
    s.tables = tables →
    Closed tables →
    t ∈ tkeys tables →
    (visit fuel s t c).err ≠ some (.nilDeref u)

theorem childLoop_noDeref (fuel : Nat) (ih : VisitNoDeref fuel) :
    ∀ (children : List String) (tables : Tables) (s : DfsState) (c : List String)
      (u : String),
      s.tables = tables →
      Closed tables →
      (∀ b ∈ children, b ∈ tkeys tables) →
      (childLoop (visit fuel) s children c).err ≠ some (.nilDeref u) := by
  intro children
  induction children with
  | nil =>
    intro tables s c u hts hcl hb
    rw [childLoop_nil]
    simp
  | cons b rest ihc =>
    intro tables s c u hts hcl hb
    cases hre : (visit fuel s b c).err with
    | some e =>
      rw [childLoop_cons_err hre]
      intro hcontra
      have hee : e = .nilDeref u := by simpa using hcontra
      subst hee
      exact ih tables s b c u hts hcl (hb b (List.mem_cons_self b rest)) hre
    | none =>
      rw [childLoop_cons_ok hre]
      have hts1 : (visit fuel s b c).state.tables = tables := by rw [visit_frame]; exact hts
      exact ihc tables (visit fuel s b c).state (visit fuel s b c).collector u hts1 hcl
        (fun b2 hb2 => hb b2 (List.mem_cons_of_mem _ hb2))

theorem visit_noDeref : ∀ fuel, VisitNoDeref fuel := by
  intro fuel
  induction fuel with
  | zero =>
    intro tables s t c u hts hcl ht
    rw [visit_zero]
    simp
  | succ n ih =>
    intro tables s t c u hts hcl ht
    cases hcol : s.nodeColor t with
    | BLACK => rw [visit_black hcol]; simp
    | GREY => rw [visit_grey hcol]; simp
    | WHITE =>
      obtain ⟨info, hlk⟩ := lookupTable_isSome_of_mem ht
      have hlks : lookupTable s.tables t = some info := by rw [hts]; exact hlk
      have hbk : ∀ b ∈ info.referencedTables, b ∈ tkeys tables :=
        fun b hb => edge_target_mem hcl ⟨info, hlk, hb⟩
      cases hce : (childLoop (visit n) (greyed s t) info.referencedTables c).err with
      | some e =>
        rw [visit_white_err hcol hlks hce]
        intro hcontra
        have hee : e = .nilDeref u := by simpa using hcontra
        subst hee
        exact childLoop_noDeref n ih info.referencedTables tables (greyed s t) c u
          (by rw [greyed_tables]; exact hts) hcl hbk hce
      | none => rw [visit_white_ok hcol hlks hce]; simp

theorem topoLoop_noDeref (fuel : Nat) :
    ∀ (keys : List String) (tables : Tables) (s : DfsState) (c : List String) (u : String),
      s.tables = tables →
      Closed tables →
      (∀ k ∈ keys, k ∈ tkeys tables) →
      (topoLoop fuel s keys c).err ≠ some (.nilDeref u) := by
  intro keys
  induction keys with
  | nil =>
    intro tables s c u hts hcl hk
    rw [topoLoop_nil]
    simp
  | cons k rest ihk =>
    intro tables s c u hts hcl hk
    cases hre : (visit fuel s k c).err with
    | some e =>
      rw [topoLoop_cons_err hre]
      intro hcontra
      have hee : e = .nilDeref u := by simpa using hcontra
      subst hee
      exact visit_noDeref fuel tables s k c u hts hcl (hk k (List.mem_cons_self k rest)) hre
    | none =>
      rw [topoLoop_cons_ok hre]
      have hts1 : (visit fuel s k c).state.tables = tables := by rw [visit_frame]; exact hts
      exact ihk tables (visit fuel s k c).state (visit fuel s k c).collector u hts1 hcl
        (fun k2 hk2 => hk k2 (List.mem_cons_of_mem _ hk2))

/-! ### Top-level assembly -/

theorem topoSortTables_fst (tables : Tables) :
    (topoSortTables tables).fst =
      (topoLoop (tables.length + 1) ⟨tables, initColors tables⟩ (tkeys tables) []).collector :=
  rfl

theorem topoSortTables_snd (tables : Tables) :
    (topoSortTables tables).snd =
      (topoLoop (tables.length + 1) ⟨tables, initColors tables⟩ (tkeys tables) []).err :=
  rfl

/-- At the start of a run every table is `WHITE`, the collector is empty
and the stack is empty: the invariant holds trivially. -/
theorem Inv_init (tables : Tables) : Inv tables [] (initColors tables) [] := by
  refine ⟨?_, List.nodup_nil, ?_, ?_, ?_, ?_⟩
  · intro x
    rw [initColors_apply]
    constructor
    · intro h; cases h
    · intro h; cases h
  · intro a b h hmem; cases hmem
  · intro x hx; cases hx
  · intro x
    rw [initColors_apply]
    constructor
    · intro h; cases h
    · intro h; cases h
  · simp

/-- When the loop of `topoSortTables` surfaces an error, the collector it
returns is `[]` (Go `nil`): the partial sequence is discarded. -/
theorem topoLoop_err_collector (fuel : Nat) :
    ∀ (keys : List String) (s : DfsState) (c : List String) (e : VisitError),
      (topoLoop fuel s keys c).err = some e → (topoLoop fuel s keys c).collector = [] := by
  intro keys
  induction keys with
  | nil =>
    intro s c e herr
    rw [topoLoop_nil] at herr
    simp at herr
  | cons k rest ihk =>
    intro s c e herr
    cases hre : (visit fuel s k c).err with
    | some e2 => rw [topoLoop_cons_err hre]
    | none =>
      rw [topoLoop_cons_ok hre] at herr ⊢
      exact ihk _ _ e herr

/-- Two entries in sequence in a duplicate-free list have strictly
increasing indices. -/
theorem indexOf_lt_of_pair_sublist {l : List String} {b a : String}
    (hnd : l.Nodup) (h : [b, a].Sublist l) : l.indexOf b < l.indexOf a := by
  induction l with
  | nil =>
    rw [List.sublist_nil] at h
    cases h
  | cons x xs ih =>
    have hx : x ∉ xs := (List.nodup_cons.mp hnd).1
    have hnd2 : xs.Nodup := (List.nodup_cons.mp hnd).2
    cases h with
    | cons _ h2 =>
      have hb : b ∈ xs := h2.subset (by simp)
      have ha : a ∈ xs := h2.subset (by simp)
      have hxb : x ≠ b := fun he => hx (he ▸ hb)
      have hxa : x ≠ a := fun he => hx (he ▸ ha)
      rw [List.indexOf_cons_ne _ hxb, List.indexOf_cons_ne _ hxa]
      exact Nat.succ_lt_succ (ih hnd2 h2)
    | cons₂ _ h2 =>
      have ha : a ∈ xs := h2.subset (by simp)
      have hba : b ≠ a := fun he => hx (he ▸ ha)
      rw [List.indexOf_cons_self, List.indexOf_cons_ne _ hba]
      exact Nat.succ_pos _

/-- Along any path of the graph, indices in a topologically ordered
duplicate-free list strictly decrease. -/
theorem reach_indexOf_lt {tables : Tables} {l : List String}
    (hnd : l.Nodup)
    (htopo : ∀ a b, edge tables a b → a ∈ l → [b, a].Sublist l) :
    ∀ a b, Reach tables a b → a ∈ l → b ∈ l ∧ l.indexOf b < l.indexOf a := by
  intro a b h
  induction h with
  | single he =>
    intro ha
    have hs := htopo _ _ he ha
    exact ⟨hs.subset (List.mem_cons_self _ _), indexOf_lt_of_pair_sublist hnd hs⟩
  | cons he hr ih =>
    intro ha
    have hs := htopo _ _ he ha
    have hmid := hs.subset (List.mem_cons_self _ _)
    obtain ⟨hb, hlt⟩ := ih hmid
    exact ⟨hb, lt_trans hlt (indexOf_lt_of_pair_sublist hnd hs)⟩

theorem Reach_source_mem {tables : Tables} {t u : String} (h : Reach tables t u) :
    t ∈ tkeys tables := by
  cases h with
  | single h1 => exact edge_source_mem h1
  | cons h1 _ => exact edge_source_mem h1

/-- Master correctness result on a well-formed acyclic graph:
`topoSortTables` succeeds, its output has no duplicates, contains exactly
the keys, and lists every referenced table before its referrer. -/
theorem topoSortTables_spec {tables : Tables} (hwf : WellFormed tables)
    (hacy : Acyclic tables) :
    (topoSortTables tables).snd = none ∧
      (topoSortTables tables).fst.Nodup ∧
      (∀ x, x ∈ (topoSortTables tables).fst ↔ x ∈ tkeys tables) ∧
      (∀ a b, edge tables a b → [b, a].Sublist (topoSortTables tables).fst) := by
  have hinv0 : Inv tables [] (initColors tables) [] := Inv_init tables
  have hwc : whiteCount tables (initColors tables) < tables.length + 1 :=
    Nat.lt_succ_of_le (whiteCount_le_length _ _)
  have herr : (topoLoop (tables.length + 1) ⟨tables, initColors tables⟩
      (tkeys tables) []).err = none :=
    topoLoop_succeeds (tables.length + 1) (tkeys tables) tables
      ⟨tables, initColors tables⟩ [] rfl hwf hacy hwc hinv0 (fun k hk => hk)
  obtain ⟨hinv, _, hblackAll⟩ :=
    topoLoop_ok (tables.length + 1) (tkeys tables) tables
      ⟨tables, initColors tables⟩ [] rfl hinv0 herr
  rw [topoSortTables_fst, topoSortTables_snd]
  refine ⟨herr, hinv.nodup, ?_, ?_⟩
  · intro x
    constructor
    · exact hinv.keysOk x
    · intro hx
      exact (hinv.blackMem x).mp (hblackAll x hx)
  · intro a b hedge
    refine hinv.topo a b hedge ?_
    exact (hinv.blackMem a).mp (hblackAll a (edge_source_mem hedge))

/-- Master cycle result on a well-formed graph containing a cycle:
`topoSortTables` returns the Go pair `(nil, reference-loop error)`, and the
named table lies on a cycle. -/
theorem topoSortTables_cycle {tables : Tables} (hwf : WellFormed tables)
    {t : String} (hcyc : Reach tables t t) :
    ∃ w, topoSortTables tables = ([], some (.cycleErr w)) ∧ Reach tables w w := by
  have hinv0 : Inv tables [] (initColors tables) [] := Inv_init tables
  cases herr : (topoLoop (tables.length + 1) ⟨tables, initColors tables⟩
      (tkeys tables) []).err with
  | none =>
    exfalso
    obtain ⟨hinv, _, hblackAll⟩ :=
      topoLoop_ok (tables.length + 1) (tkeys tables) tables
        ⟨tables, initColors tables⟩ [] rfl hinv0 herr
    have htmem := (hinv.blackMem t).mp (hblackAll t (Reach_source_mem hcyc))
    obtain ⟨_, hlt⟩ := reach_indexOf_lt hinv.nodup hinv.topo t t hcyc htmem
    exact lt_irrefl _ hlt
  | some e =>
    cases e with
    | outOfFuel =>
      exact absurd herr (topoLoop_noFuel (tables.length + 1) (tkeys tables)
        ⟨tables, initColors tables⟩ [] (Nat.lt_succ_of_le (whiteCount_le_length _ _)))
    | nilDeref u =>
      exact absurd herr (topoLoop_noDeref (tables.length + 1) (tkeys tables) tables
        ⟨tables, initColors tables⟩ [] u rfl hwf.2 (fun k hk => hk))
    | cycleErr w =>
      refine ⟨w, ?_, ?_⟩
      · have hcoll := topoLoop_err_collector (tables.length + 1) (tkeys tables)
          ⟨tables, initColors tables⟩ [] _ herr
        have h1 := topoSortTables_fst tables
        have h2 := topoSortTables_snd tables
        rw [hcoll] at h1
        rw [herr] at h2
        exact Prod.ext h1 h2
      · exact topoLoop_cycle (tables.length + 1) (tkeys tables) tables
          ⟨tables, initColors tables⟩ [] w rfl hinv0 herr

/-! ### Ghost-instrumented traversal

The instrumented functions below are the same functions as
`childLoop`/`visit`/`topoLoop` with one additional ghost output:
`traversed` records, in order, each table whose `referencedTables` set gets
iterated, i.e. each entry into the `WHITE` branch that reaches the loop
over the references.  The projection lemmas prove that on the shared
components the instrumented functions compute exactly what the plain ones
compute. -/

structure VisitResultT where
  state : DfsState
  collector : List String
  err : Option VisitError
  traversed : List String

def childLoopT (f : DfsState → String → List String → VisitResultT) :
    DfsState → List String → List String → VisitResultT
  | s, [], collector => ⟨s, collector, none, []⟩
  | s, childTable :: rest, collector =>
    let r := f s childTable collector
    match r.err with
    | some e => ⟨r.state, [], some e, r.traversed⟩
    | none =>
      let r2 := childLoopT f r.state rest r.collector
      ⟨r2.state, r2.collector, r2.err, r.traversed ++ r2.traversed⟩

def visitT : Nat → DfsState → String → List String → VisitResultT
  | 0, s, _, _ => ⟨s, [], some .outOfFuel, []⟩
  | fuel + 1, s, curTable, collector =>
    match s.nodeColor curTable with
    | .WHITE =>
      let s1 : DfsState := greyed s curTable
      match lookupTable s1.tables curTable with
      | none => ⟨s1, [], some (.nilDeref curTable), []⟩
      | some info =>
        let r := childLoopT (visitT fuel) s1 info.referencedTables collector
        match r.err with
        | some e => ⟨r.state, [], some e, curTable :: r.traversed⟩
        | none =>
          ⟨blacked r.state curTable, r.collector ++ [curTable], none,
            curTable :: r.traversed⟩
    | .GREY => ⟨s, [], some (.cycleErr curTable), []⟩
    | .BLACK => ⟨s, collector, none, []⟩

def topoLoopT (fuel : Nat) : DfsState → List String → List String → VisitResultT
  | s, [], collector => ⟨s, collector, none, []⟩
  | s, table :: rest, collector =>
    let r := visitT fuel s table collector
    match r.err with
    | some e => ⟨r.state, [], some e, r.traversed⟩
    | none =>
      let r2 := topoLoopT fuel r.state rest r.collector
      ⟨r2.state, r2.collector, r2.err, r.traversed ++ r2.traversed⟩

/-- Instrumented `topoSortTables`, additionally reporting which tables had
their reference set iterated. -/
def topoSortT (tables : Tables) : VisitResultT :=
  topoLoopT (tables.length + 1) ⟨tables, initColors tables⟩ (tkeys tables) []

theorem childLoopT_nil (f : DfsState → String → List String → VisitResultT)
    (s : DfsState) (c : List String) : childLoopT f s [] c = ⟨s, c, none, []⟩ := rfl

theorem childLoopT_cons_err {f : DfsState → String → List String → VisitResultT}
    {s : DfsState} {b : String} {c : List String} {e : VisitError}
    (h : (f s b c).err = some e) (rest : List String) :
    childLoopT f s (b :: rest) c =
      ⟨(f s b c).state, [], some e, (f s b c).traversed⟩ := by
  simp only [childLoopT, h]

theorem childLoopT_cons_ok {f : DfsState → String → List String → VisitResultT}
    {s : DfsState} {b : String} {c : List String}
    (h : (f s b c).err = none) (rest : List String) :
    childLoopT f s (b :: rest) c =
      ⟨(childLoopT f (f s b c).state rest (f s b c).collector).state,
       (childLoopT f (f s b c).state rest (f s b c).collector).collector,
       (childLoopT f (f s b c).state rest (f s b c).collector).err,
       (f s b c).traversed ++
         (childLoopT f (f s b c).state rest (f s b c).collector).traversed⟩ := by
  simp only [childLoopT, h]

theorem visitT_zero (s : DfsState) (t : String) (c : List String) :
    visitT 0 s t c = ⟨s, [], some .outOfFuel, []⟩ := rfl

theorem visitT_grey {s : DfsState} {t : String} (h : s.nodeColor t = .GREY)
    (fuel : Nat) (c : List String) :
    visitT (fuel + 1) s t c = ⟨s, [], some (.cycleErr t), []⟩ := by
  simp only [visitT, h]

theorem visitT_black {s : DfsState} {t : String} (h : s.nodeColor t = .BLACK)
    (fuel : Nat) (c : List String) :
    visitT (fuel + 1) s t c = ⟨s, c, none, []⟩ := by
  simp only [visitT, h]

theorem visitT_white_deref {s : DfsState} {t : String} (h : s.nodeColor t = .WHITE)
    (hlk : lookupTable s.tables t = none) (fuel : Nat) (c : List String) :
    visitT (fuel + 1) s t c = ⟨greyed s t, [], some (.nilDeref t), []⟩ := by
  simp only [visitT, h, greyed_tables, hlk]

theorem visitT_white_err {s : DfsState} {t : String} {info : TableInfo} {e : VisitError}
    (h : s.nodeColor t = .WHITE) (hlk : lookupTable s.tables t = some info)
    {fuel : Nat} {c : List String}
    (hce : (childLoopT (visitT fuel) (greyed s t) info.referencedTables c).err = some e) :
    visitT (fuel + 1) s t c =
      ⟨(childLoopT (visitT fuel) (greyed s t) info.referencedTables c).state, [], some e,
        t :: (childLoopT (visitT fuel) (greyed s t) info.referencedTables c).traversed⟩ := by
  simp only [visitT, h, greyed_tables, hlk, hce]

theorem visitT_white_ok {s : DfsState} {t : String} {info : TableInfo}
    (h : s.nodeColor t = .WHITE) (hlk : lookupTable s.tables t = some info)
    {fuel : Nat} {c : List String}
    (hce : (childLoopT (visitT fuel) (greyed s t) info.referencedTables c).err = none) :
    visitT (fuel + 1) s t c =
      ⟨blacked (childLoopT (visitT fuel) (greyed s t) info.referencedTables c).state t,
        (childLoopT (visitT fuel) (greyed s t) info.referencedTables c).collector ++ [t],
        none,
        t :: (childLoopT (visitT fuel) (greyed s t) info.referencedTables c).traversed⟩ := by
  simp only [visitT, h, greyed_tables, hlk, hce]

theorem topoLoopT_nil (fuel : Nat) (s : DfsState) (c : List String) :
    topoLoopT fuel s [] c = ⟨s, c, none, []⟩ := rfl

theorem topoLoopT_cons_err {fuel : Nat} {s : DfsState} {k : String} {c : List String}
    {e : VisitError} (h : (visitT fuel s k c).err = some e) (rest : List String) :
    topoLoopT fuel s (k :: rest) c =
      ⟨(visitT fuel s k c).state, [], some e, (visitT fuel s k c).traversed⟩ := by
  simp only [topoLoopT, h]

theorem topoLoopT_cons_ok {fuel : Nat} {s : DfsState} {k : String} {c : List String}
    (h : (visitT fuel s k c).err = none) (rest : List String) :
    topoLoopT fuel s (k :: rest) c =
      ⟨(topoLoopT fuel (visitT fuel s k c).state rest (visitT fuel s k c).collector).state,
       (topoLoopT fuel (visitT fuel s k c).state rest (visitT fuel s k c).collector).collector,
       (topoLoopT fuel (visitT fuel s k c).state rest (visitT fuel s k c).collector).err,
       (visitT fuel s k c).traversed ++
         (topoLoopT fuel (visitT fuel s k c).state rest
           (visitT fuel s k c).collector).traversed⟩ := by
  simp only [topoLoopT, h]

/-- Agreement of an instrumented result with a plain result on the shared
components. -/
def projEq (rt : VisitResultT) (r : VisitResult) : Prop :=
  rt.state = r.state ∧ rt.collector = r.collector ∧ rt.err = r.err

theorem childLoopT_proj (f : DfsState → String → List String → VisitResult)
    (fT : DfsState → String → List String → VisitResultT)
    (hf : ∀ s t c, projEq (fT s t c) (f s t c)) :
    ∀ (children : List String) (s : DfsState) (c : List String),
      projEq (childLoopT fT s children c) (childLoop f s children c) := by
  intro children
  induction children with
  | nil => intro s c; exact ⟨rfl, rfl, rfl⟩
  | cons b rest ih =>
    intro s c
    obtain ⟨hst, hco, her⟩ := hf s b c
    cases hre : (f s b c).err with
    | some e =>
      have hreT : (fT s b c).err = some e := by rw [her, hre]
      rw [childLoopT_cons_err hreT, childLoop_cons_err hre]
      exact ⟨hst, rfl, rfl⟩
    | none =>
      have hreT : (fT s b c).err = none := by rw [her, hre]
      rw [childLoopT_cons_ok hreT, childLoop_cons_ok hre]
      rw [hst, hco]
      obtain ⟨h1, h2, h3⟩ := ih (f s b c).state (f s b c).collector
      exact ⟨h1, h2, h3⟩

theorem visitT_proj : ∀ (fuel : Nat) (s : DfsState) (t : String) (c : List String),
    projEq (visitT fuel s t c) (visit fuel s t c) := by
  intro fuel
  induction fuel with
  | zero => intro s t c; exact ⟨rfl, rfl, rfl⟩
  | succ n ih =>
    intro s t c
    cases hcol : s.nodeColor t with
    | GREY => rw [visitT_grey hcol, visit_grey hcol]; exact ⟨rfl, rfl, rfl⟩
    | BLACK => rw [visitT_black hcol, visit_black hcol]; exact ⟨rfl, rfl, rfl⟩
    | WHITE =>
      cases hlk : lookupTable s.tables t with
      | none =>
        rw [visitT_white_deref hcol hlk, visit_white_deref hcol hlk]
        exact ⟨rfl, rfl, rfl⟩
      | some info =>
        obtain ⟨hst, hco, her⟩ :=
          childLoopT_proj (visit n) (visitT n) ih info.referencedTables (greyed s t) c
        cases hce : (childLoop (visit n) (greyed s t) info.referencedTables c).err with
        | some e =>
          have hceT : (childLoopT (visitT n) (greyed s t) info.referencedTables c).err =
              some e := by rw [her, hce]
          rw [visitT_white_err hcol hlk hceT, visit_white_err hcol hlk hce]
          exact ⟨hst, rfl, rfl⟩
        | none =>
          have hceT : (childLoopT (visitT n) (greyed s t) info.referencedTables c).err =
              none := by rw [her, hce]
          rw [visitT_white_ok hcol hlk hceT, visit_white_ok hcol hlk hce]
          rw [hst, hco]
          exact ⟨rfl, rfl, rfl⟩

theorem topoLoopT_proj (fuel : Nat) :
    ∀ (keys : List String) (s : DfsState) (c : List String),
      projEq (topoLoopT fuel s keys c) (topoLoop fuel s keys c) := by
  intro keys
  induction keys with
  | nil => intro s c; exact ⟨rfl, rfl, rfl⟩
  | cons k rest ih =>
    intro s c
    obtain ⟨hst, hco, her⟩ := visitT_proj fuel s k c
    cases hre : (visit fuel s k c).err with
    | some e =>
      have hreT : (visitT fuel s k c).err = some e := by rw [her, hre]
      rw [topoLoopT_cons_err hreT, topoLoop_cons_err hre]
      exact ⟨hst, rfl, rfl⟩
    | none =>
      have hreT : (visitT fuel s k c).err = none := by rw [her, hre]
      rw [topoLoopT_cons_ok hreT, topoLoop_cons_ok hre]
      rw [hst, hco]
      obtain ⟨h1, h2, h3⟩ := ih (visit fuel s k c).state (visit fuel s k c).collector
      exact ⟨h1, h2, h3⟩

/-- Requirements on the ghost trace of a call starting in state `s`: no
table is recorded twice, every recorded table was `WHITE` when the call
began, and none is `WHITE` when the call returns. -/
def TraceOk (s : DfsState) (rt : VisitResultT) : Prop :=
  rt.traversed.Nodup ∧
    (∀ x ∈ rt.traversed, s.nodeColor x = .WHITE) ∧
    (∀ x ∈ rt.traversed, rt.state.nodeColor x ≠ .WHITE)

theorem traceOk_append {s st1 st2 : DfsState} {tr1 tr2 : List String}
    (h1nd : tr1.Nodup) (h1w : ∀ x ∈ tr1, s.nodeColor x = .WHITE)
    (h1f : ∀ x ∈ tr1, st1.nodeColor x ≠ .WHITE)
    (h2nd : tr2.Nodup) (h2w : ∀ x ∈ tr2, st1.nodeColor x = .WHITE)
    (h2f : ∀ x ∈ tr2, st2.nodeColor x ≠ .WHITE)
    (hm1 : colorLE s.nodeColor st1.nodeColor)
    (hm2 : colorLE st1.nodeColor st2.nodeColor) :
    (tr1 ++ tr2).Nodup ∧ (∀ x ∈ tr1 ++ tr2, s.nodeColor x = .WHITE) ∧
      (∀ x ∈ tr1 ++ tr2, st2.nodeColor x ≠ .WHITE) := by
  refine ⟨?_, ?_, ?_⟩
  · rw [List.nodup_append]
    refine ⟨h1nd, h2nd, ?_⟩
    intro x hx1 hx2
    exact h1f x hx1 (h2w x hx2)
  · intro x hx
    rcases List.mem_append.mp hx with h1 | h2
    · exact h1w x h1
    · exact hm1.white_rev (h2w x h2)
  · intro x hx
    rcases List.mem_append.mp hx with h1 | h2
    · intro hwx
      exact h1f x h1 (hm2.white_rev hwx)
    · exact h2f x h2

theorem childLoopT_trace (fuel : Nat)
    (ih : ∀ (s : DfsState) (t : String) (c : List String), TraceOk s (visitT fuel s t c)) :
    ∀ (children : List String) (s : DfsState) (c : List String),
      TraceOk s (childLoopT (visitT fuel) s children c) := by
  intro children
  induction children with
  | nil =>
    intro s c
    exact ⟨List.nodup_nil, fun x hx => absurd hx (List.not_mem_nil x),
      fun x hx => absurd hx (List.not_mem_nil x)⟩
  | cons b rest ihc =>
    intro s c
    have hb := ih s b c
    have hproj := visitT_proj fuel s b c
    cases hre : (visitT fuel s b c).err with
    | some e =>
      rw [childLoopT_cons_err hre]
      exact ⟨hb.1, hb.2.1, hb.2.2⟩
    | none =>
      rw [childLoopT_cons_ok hre]
      have hrec := ihc (visitT fuel s b c).state (visitT fuel s b c).collector
      have hmono1 : colorLE s.nodeColor (visitT fuel s b c).state.nodeColor := by
        rw [hproj.1]
        exact visit_mono fuel s b c
      have hmono2 : colorLE (visitT fuel s b c).state.nodeColor
          (childLoopT (visitT fuel) (visitT fuel s b c).state rest
            (visitT fuel s b c).collector).state.nodeColor := by
        have hp2 := childLoopT_proj (visit fuel) (visitT fuel) (visitT_proj fuel) rest
          (visitT fuel s b c).state (visitT fuel s b c).collector
        rw [hp2.1]
        exact childLoop_mono (visit fuel) (visit_mono fuel) rest _ _
      exact traceOk_append hb.1 hb.2.1 hb.2.2 hrec.1 hrec.2.1 hrec.2.2 hmono1 hmono2

theorem visitT_trace : ∀ (fuel : Nat) (s : DfsState) (t : String) (c : List String),
    TraceOk s (visitT fuel s t c) := by
  intro fuel
  induction fuel with
  | zero =>
    intro s t c
    exact ⟨List.nodup_nil, fun x hx => absurd hx (List.not_mem_nil x),
      fun x hx => absurd hx (List.not_mem_nil x)⟩
  | succ n ih =>
    intro s t c
    cases hcol : s.nodeColor t with
    | GREY =>
      rw [visitT_grey hcol]
      exact ⟨List.nodup_nil, fun x hx => absurd hx (List.not_mem_nil x),
        fun x hx => absurd hx (List.not_mem_nil x)⟩
    | BLACK =>
      rw [visitT_black hcol]
      exact ⟨List.nodup_nil, fun x hx => absurd hx (List.not_mem_nil x),
        fun x hx => absurd hx (List.not_mem_nil x)⟩
    | WHITE =>
      cases hlk : lookupTable s.tables t with
      | none =>
        rw [visitT_white_deref hcol hlk]
        exact ⟨List.nodup_nil, fun x hx => absurd hx (List.not_mem_nil x),
          fun x hx => absurd hx (List.not_mem_nil x)⟩
      | some info =>
        have hct := childLoopT_trace n ih info.referencedTables (greyed s t) c
        have hxt : ∀ x ∈ (childLoopT (visitT n) (greyed s t)
            info.referencedTables c).traversed, x ≠ t := by
          intro x hx he
          have h2 := hct.2.1 x hx
          rw [he, greyed_nodeColor, Function.update_same] at h2
          cases h2
        have hxw : ∀ x ∈ (childLoopT (visitT n) (greyed s t)
            info.referencedTables c).traversed, s.nodeColor x = .WHITE := by
          intro x hx
          have h2 := hct.2.1 x hx
          rw [greyed_nodeColor, Function.update_noteq (hxt x hx)] at h2
          exact h2
        have htnot : t ∉ (childLoopT (visitT n) (greyed s t)
            info.referencedTables c).traversed := fun hmem => (hxt t hmem) rfl
        have hmonoG : colorLE (greyed s t).nodeColor
            (childLoopT (visitT n) (greyed s t) info.referencedTables c).state.nodeColor := by
          have hp2 := childLoopT_proj (visit n) (visitT n) (visitT_proj n)
            info.referencedTables (greyed s t) c
          rw [hp2.1]
          exact childLoop_mono (visit n) (visit_mono n) info.referencedTables _ _
        have ht_f : (childLoopT (visitT n) (greyed s t)
            info.referencedTables c).state.nodeColor t ≠ .WHITE := by
          intro hwt
          have h2 := hmonoG.white_rev hwt
          rw [greyed_nodeColor, Function.update_same] at h2
          cases h2
        cases hce : (childLoopT (visitT n) (greyed s t) info.referencedTables c).err with
        | some e =>
          rw [visitT_white_err hcol hlk hce]
          refine ⟨List.nodup_cons.mpr ⟨htnot, hct.1⟩, ?_, ?_⟩
          · intro x hx
            rcases List.mem_cons.mp hx with rfl | h2
            · exact hcol
            · exact hxw x h2
          · intro x hx
            rcases List.mem_cons.mp hx with rfl | h2
            · exact ht_f
            · exact hct.2.2 x h2
        | none =>
          rw [visitT_white_ok hcol hlk hce]
          refine ⟨List.nodup_cons.mpr ⟨htnot, hct.1⟩, ?_, ?_⟩
          · intro x hx
            rcases List.mem_cons.mp hx with rfl | h2
            · exact hcol
            · exact hxw x h2
          · intro x hx
            show (blacked (childLoopT (visitT n) (greyed s t)
              info.referencedTables c).state t).nodeColor x ≠ .WHITE
            rw [blacked_nodeColor]
            rcases List.mem_cons.mp hx with rfl | h2
            · rw [Function.update_same]
              intro h3; cases h3
            · by_cases hx2 : x = t
              · subst hx2
                rw [Function.update_same]
                intro h3; cases h3
              · rw [Function.update_noteq hx2]
                exact hct.2.2 x h2

theorem topoLoopT_trace (fuel : Nat) :
    ∀ (keys : List String) (s : DfsState) (c : List String),
      TraceOk s (topoLoopT fuel s keys c) := by
  intro keys
  induction keys with
  | nil =>
    intro s c
    exact ⟨List.nodup_nil, fun x hx => absurd hx (List.not_mem_nil x),
      fun x hx => absurd hx (List.not_mem_nil x)⟩
  | cons k rest ihk =>
    intro s c
    have hb := visitT_trace fuel s k c
    have hproj := visitT_proj fuel s k c
    cases hre : (visitT fuel s k c).err with
    | some e =>
      rw [topoLoopT_cons_err hre]
      exact ⟨hb.1, hb.2.1, hb.2.2⟩
    | none =>
      rw [topoLoopT_cons_ok hre]
      have hrec := ihk (visitT fuel s k c).state (visitT fuel s k c).collector
      have hmono1 : colorLE s.nodeColor (visitT fuel s k c).state.nodeColor := by
        rw [hproj.1]
        exact visit_mono fuel s k c
      have hmono2 : colorLE (visitT fuel s k c).state.nodeColor
          (topoLoopT fuel (visitT fuel s k c).state rest
            (visitT fuel s k c).collector).state.nodeColor := by
        have hp2 := topoLoopT_proj fuel rest
          (visitT fuel s k c).state (visitT fuel s k c).collector
        rw [hp2.1]
        exact topoLoop_mono fuel rest _ _
      exact traceOk_append hb.1 hb.2.1 hb.2.2 hrec.1 hrec.2.1 hrec.2.2 hmono1 hmono2

/-! ### Concrete graphs used to instantiate the theorems -/

def tblA : String := "a"

def tblB : String := "b"

def tblC : String := "c"

/-- Two tables, `a` referencing `b`: an acyclic graph with one edge. -/
def gLinear : Tables := [(tblA, ⟨[tblB]⟩), (tblB, ⟨[]⟩)]

/-- A single self-referencing table: a one-node cycle. -/
def gSelf : Tables := [(tblA, ⟨[tblA]⟩)]

/-- A single table referencing the unknown name `b`. -/
def gMissing : Tables := [(tblA, ⟨[tblB]⟩)]

/-- A diamond: tables `a` and `b` both reference the shared table `c`. -/
def gDiamond : Tables := [(tblA, ⟨[tblC]⟩), (tblB, ⟨[tblC]⟩), (tblC, ⟨[]⟩)]

theorem edge_elim {tables : Tables} {a b : String} (h : edge tables a b) :
    ∃ p ∈ tables, p.fst = a ∧ b ∈ p.snd.referencedTables := by
  obtain ⟨info, hlk, hb⟩ := h
  exact ⟨(a, info), pair_mem_of_lookupTable hlk, rfl, hb⟩

theorem gLinear_edge {a b : String} (h : edge gLinear a b) : a = tblA ∧ b = tblB := by
  obtain ⟨p, hp, hpa, hb⟩ := edge_elim h
  simp only [gLinear, List.mem_cons, List.not_mem_nil, or_false] at hp
  rcases hp with rfl | rfl
  · refine ⟨hpa.symm, ?_⟩
    simpa using hb
  · simp at hb

theorem gLinear_acyclic : Acyclic gLinear := by
  intro x hx
  have key : ∀ y z, Reach gLinear y z → y = tblA ∧ z = tblB := by
    intro y z h
    induction h with
    | single h1 => exact gLinear_edge h1
    | cons h1 hr ih =>
      exfalso
      have h2 := gLinear_edge h1
      have hAB : tblA = tblB := by rw [← ih.1, h2.2]
      exact absurd hAB (by decide)
  obtain ⟨h1, h2⟩ := key x x hx
  rw [h1] at h2
  exact absurd h2 (by decide)

theorem gLinear_wf : WellFormed gLinear := by
  constructor
  · decide
  · intro p hp b hb
    simp only [gLinear, List.mem_cons, List.not_mem_nil, or_false] at hp
    rcases hp with rfl | rfl
    · have hbB : b = tblB := by simpa using hb
      subst hbB
      decide
    · simp at hb

theorem gDiamond_edge {a b : String} (h : edge gDiamond a b) :
    (a = tblA ∨ a = tblB) ∧ b = tblC := by
  obtain ⟨p, hp, hpa, hb⟩ := edge_elim h
  simp only [gDiamond, List.mem_cons, List.not_mem_nil, or_false] at hp
  rcases hp with rfl | rfl | rfl
  · exact ⟨Or.inl hpa.symm, by simpa using hb⟩
  · exact ⟨Or.inr hpa.symm, by simpa using hb⟩
  · simp at hb

theorem gDiamond_acyclic : Acyclic gDiamond := by
  intro x hx
  have key : ∀ y z, Reach gDiamond y z → (y = tblA ∨ y = tblB) ∧ z = tblC := by
    intro y z h
    induction h with
    | single h1 => exact gDiamond_edge h1
    | cons h1 hr ih =>
      exfalso
      have h2 := gDiamond_edge h1
      rcases ih.1 with h3 | h3
      · have hCA : tblC = tblA := by rw [← h2.2, h3]
        exact absurd hCA (by decide)
      · have hCB : tblC = tblB := by rw [← h2.2, h3]
        exact absurd hCB (by decide)
  obtain ⟨h1, h2⟩ := key x x hx
  rcases h1 with h1 | h1 <;> rw [h1] at h2 <;> exact absurd h2 (by decide)

theorem gDiamond_wf : WellFormed gDiamond := by
  constructor
  · decide
  · intro p hp b hb
    simp only [gDiamond, List.mem_cons, List.not_mem_nil, or_false] at hp
    rcases hp with rfl | rfl | rfl
    · have hbC : b = tblC := by simpa using hb
      subst hbC
      decide
    · have hbC : b = tblC := by simpa using hb
      subst hbC
      decide
    · simp at hb

theorem gSelf_wf : WellFormed gSelf := by
  constructor
  · decide
  · intro p hp b hb
    simp only [gSelf, List.mem_cons, List.not_mem_nil, or_false] at hp
    rcases hp with rfl
    have hbA : b = tblA := by simpa using hb
    subst hbA
    decide

theorem gSelf_reach : Reach gSelf tblA tblA :=
  Reach.single ⟨⟨[tblA]⟩, rfl, by decide⟩

/-! ### The claims -/

/-- C1: for every well-formed acyclic dependency graph, `topoSortTables`
returns (with a nil error) a sequence that is a topological order: for
every edge A→B (table A references table B), B's index in the result is
strictly less than A's index. -/
theorem C1_topological_order {tables : Tables} (hwf : WellFormed tables)
    (hacy : Acyclic tables) :
    ∃ res, topoSortTables tables = (res, none) ∧
      ∀ a b, edge tables a b → res.indexOf b < res.indexOf a := by
  obtain ⟨herr, hnd, hmem, htopo⟩ := topoSortTables_spec hwf hacy
  refine ⟨(topoSortTables tables).fst, Prod.ext rfl herr, ?_⟩
  intro a b hedge
  exact indexOf_lt_of_pair_sublist hnd (htopo a b hedge)

/-- Witness for C1 at the concrete graph with tables `a`, `b` and the
single edge a→b. -/
theorem C1_witness :
    ∃ res, topoSortTables gLinear = (res, none) ∧
      ∀ a b, edge gLinear a b → res.indexOf b < res.indexOf a :=
  C1_topological_order gLinear_wf gLinear_acyclic

/-- C2: for every well-formed acyclic dependency graph, `topoSortTables`
succeeds (nil error) and its result contains every key of the table map
exactly once: no duplicates, membership coincides with the key set, and
the result is a permutation of the keys. -/
theorem C2_every_key_once {tables : Tables} (hwf : WellFormed tables)
    (hacy : Acyclic tables) :
    ∃ res, topoSortTables tables = (res, none) ∧ res.Nodup ∧
      (∀ x, x ∈ res ↔ x ∈ tkeys tables) ∧ res.Perm (tkeys tables) := by
  obtain ⟨herr, hnd, hmem, _⟩ := topoSortTables_spec hwf hacy
  refine ⟨(topoSortTables tables).fst, Prod.ext rfl herr, hnd, hmem, ?_⟩
  refine List.perm_of_nodup_nodup_toFinset_eq hnd hwf.1 ?_
  ext x
  simp only [List.mem_toFinset]
  exact hmem x

/-- Witness for C2 at the concrete graph with tables `a`, `b` and the
single edge a→b. -/
theorem C2_witness :
    ∃ res, topoSortTables gLinear = (res, none) ∧ res.Nodup ∧
      (∀ x, x ∈ res ↔ x ∈ tkeys gLinear) ∧ res.Perm (tkeys gLinear) :=
  C2_every_key_once gLinear_wf gLinear_acyclic

/-- C3: on every well-formed graph containing a directed cycle (of any
length, including a self-reference), `topoSortTables` fails with the
reference-loop error naming a table that lies on a cycle, and the returned
pair is `(nil, error)`: the partial sequence is discarded. -/
theorem C3_cycle_detected {tables : Tables} (hwf : WellFormed tables)
    {t : String} (hcyc : Reach tables t t) :
    ∃ w, topoSortTables tables = ([], some (.cycleErr w)) ∧ Reach tables w w :=
  topoSortTables_cycle hwf hcyc

/-- Witness for C3 at the one-table self-referencing graph. -/
theorem C3_witness :
    ∃ w, topoSortTables gSelf = ([], some (.cycleErr w)) ∧ Reach gSelf w w :=
  C3_cycle_detected gSelf_wf gSelf_reach

/-- C4 counterexample: at the concrete graph where table `a` references
the unknown name `b`, the routine does not fail with a structured
`MalformedGraph`-style error: it reaches the modelled nil-pointer
dereference (`tables["b"]` is Go `nil` and its `referencedTables` field is
read), i.e. a runtime panic; no error kind other than the reference-loop
error exists in the code. -/
theorem C4_counterexample :
    topoSortTables gMissing = ([], some (.nilDeref tblB)) := by decide

/-- C4 amended: when a table's reference set names an unknown table, the
unknown name reads as `WHITE` (the Go zero value), is first marked `GREY`,
and then the lookup yields `nil`, whose field access is a runtime
nil-pointer dereference (modelled `nilDeref`); no `MalformedGraph` error
value is defined or returned. -/
theorem C4_amended {s : DfsState} {t : String} (hcol : s.nodeColor t = .WHITE)
    (hlk : lookupTable s.tables t = none) (fuel : Nat) (c : List String) :
    visit (fuel + 1) s t c = ⟨greyed s t, [], some (.nilDeref t)⟩ ∧
      (greyed s t).nodeColor t = .GREY :=
  ⟨visit_white_deref hcol hlk fuel c, by rw [greyed_nodeColor, Function.update_same]⟩

/-- Witness for the amended C4 at the concrete graph missing table `b`. -/
theorem C4_witness :
    visit 2 ⟨gMissing, initColors gMissing⟩ tblB [] =
        ⟨greyed ⟨gMissing, initColors gMissing⟩ tblB, [], some (.nilDeref tblB)⟩ ∧
      (greyed ⟨gMissing, initColors gMissing⟩ tblB).nodeColor tblB = .GREY :=
  C4_amended (by decide) (by decide) 1 []

/-- C5: under the precondition that every name referenced by any table is a
key of the table map, the nil dereference is unreachable and the functions
are total: `topoSortTables` never returns the modelled panic nor exhausts
the embedded recursion bound, and `visit` on a known table never reaches
the panic. -/
theorem C5_no_nil_deref {tables : Tables} (hcl : Closed tables) :
    (∀ u, (topoSortTables tables).snd ≠ some (.nilDeref u)) ∧
      (topoSortTables tables).snd ≠ some .outOfFuel ∧
      (∀ (fuel : Nat) (s : DfsState) (t : String) (c : List String) (u : String),
        s.tables = tables → t ∈ tkeys tables →
        (visit fuel s t c).err ≠ some (.nilDeref u)) := by
  refine ⟨?_, topoSortTables_noFuel tables, ?_⟩
  · intro u
    rw [topoSortTables_snd]
    exact topoLoop_noDeref (tables.length + 1) (tkeys tables) tables
      ⟨tables, initColors tables⟩ [] u rfl hcl (fun k hk => hk)
  · intro fuel s t c u hts ht
    exact visit_noDeref fuel tables s t c u hts hcl ht

/-- Witness for C5 at the concrete closed graph with edge a→b. -/
theorem C5_witness :
    (∀ u, (topoSortTables gLinear).snd ≠ some (.nilDeref u)) ∧
      (topoSortTables gLinear).snd ≠ some .outOfFuel ∧
      (∀ (fuel : Nat) (s : DfsState) (t : String) (c : List String) (u : String),
        s.tables = gLinear → t ∈ tkeys gLinear →
        (visit fuel s t c).err ≠ some (.nilDeref u)) :=
  C5_no_nil_deref gLinear_wf.2

/-- C6: the per-table color state machine of a run.  First, colors only
advance in rank `WHITE < GREY < BLACK`, never backwards.  Second, under the
run invariant (which states that the `GREY` tables are exactly the ghost
stack of in-progress ancestors), a successful `visit` restores the `GREY`
set to exactly that stack, and every `BLACK` table has all its referenced
tables `BLACK`.  Third, in the `WHITE` branch the table is `GREY` while its
references are visited, and is recolored `BLACK` and appended only after
the whole reference loop succeeds. -/
theorem C6_color_state_machine :
    (∀ (fuel : Nat) (s : DfsState) (t : String) (c : List String) (x : String),
        colorRank (s.nodeColor x) ≤ colorRank ((visit fuel s t c).state.nodeColor x)) ∧
      (∀ (fuel : Nat) (tables : Tables) (s : DfsState) (t : String) (c g : List String),
        s.tables = tables →
        Inv tables g s.nodeColor c →
        (∀ p, g.head? = some p → edge tables p t) →
        (visit fuel s t c).err = none →
        (∀ x, (visit fuel s t c).state.nodeColor x = .GREY ↔ x ∈ g) ∧
          (∀ a b, (visit fuel s t c).state.nodeColor a = .BLACK → edge tables a b →
            (visit fuel s t c).state.nodeColor b = .BLACK)) ∧
      (∀ (fuel : Nat) (s : DfsState) (t : String) (c : List String) (info : TableInfo),
        s.nodeColor t = .WHITE → lookupTable s.tables t = some info →
        (greyed s t).nodeColor t = .GREY ∧
          ((childLoop (visit fuel) (greyed s t) info.referencedTables c).err = none →
            visit (fuel + 1) s t c =
              ⟨blacked (childLoop (visit fuel) (greyed s t) info.referencedTables c).state t,
                (childLoop (visit fuel) (greyed s t) info.referencedTables c).collector ++ [t],
                none⟩)) := by
  refine ⟨fun fuel s t c x => visit_mono fuel s t c x, ?_, ?_⟩
  · intro fuel tables s t c g hts hinv hconn herr
    obtain ⟨hinv2, _, _⟩ := visit_ok fuel tables s t c g hts hinv hconn herr
    refine ⟨hinv2.greyIff, ?_⟩
    intro a b hba hedge
    have hac := (hinv2.blackMem a).mp hba
    have hs := hinv2.topo a b hedge hac
    exact (hinv2.blackMem b).mpr (hs.subset (List.mem_cons_self _ _))
  · intro fuel s t c info hcol hlk
    refine ⟨by rw [greyed_nodeColor, Function.update_same], ?_⟩
    intro hce
    exact visit_white_ok hcol hlk hce

/-- Witness for C6, instantiating each conjunct on the concrete graph with
edge a→b. -/
theorem C6_witness :
    (colorRank ((⟨gLinear, initColors gLinear⟩ : DfsState).nodeColor tblA) ≤
        colorRank ((visit 3 ⟨gLinear, initColors gLinear⟩ tblA []).state.nodeColor tblA)) ∧
      (∀ x, (visit 3 ⟨gLinear, initColors gLinear⟩ tblA []).state.nodeColor x = .GREY ↔
        x ∈ ([] : List String)) ∧
      (greyed ⟨gLinear, initColors gLinear⟩ tblA).nodeColor tblA = .GREY := by
  refine ⟨C6_color_state_machine.1 3 ⟨gLinear, initColors gLinear⟩ tblA [] tblA, ?_, ?_⟩
  · exact (C6_color_state_machine.2.1 3 gLinear ⟨gLinear, initColors gLinear⟩ tblA [] []
      rfl (Inv_init gLinear) (fun p hp => Option.noConfusion hp) (by decide)).1
  · exact (C6_color_state_machine.2.2 3 ⟨gLinear, initColors gLinear⟩ tblA [] ⟨[tblB]⟩
      (by decide) (by decide)).1

/-- C7: on every finite input graph the run terminates (the embedded
recursion-depth bound is never exhausted), and within a single run each
table's reference set is iterated at most once: the instrumented run,
which records each table whose references get traversed and provably
computes the same result, never records a table twice. -/
theorem C7_terminates_refs_once (tables : Tables) :
    (topoSortTables tables).snd ≠ some .outOfFuel ∧
      (topoSortT tables).traversed.Nodup ∧
      (topoSortT tables).collector = (topoSortTables tables).fst ∧
      (topoSortT tables).err = (topoSortTables tables).snd := by
  refine ⟨topoSortTables_noFuel tables, ?_, ?_, ?_⟩
  · exact (topoLoopT_trace (tables.length + 1) (tkeys tables)
      ⟨tables, initColors tables⟩ []).1
  · exact (topoLoopT_proj (tables.length + 1) (tkeys tables)
      ⟨tables, initColors tables⟩ []).2.1
  · exact (topoLoopT_proj (tables.length + 1) (tkeys tables)
      ⟨tables, initColors tables⟩ []).2.2

/-- C8: a diamond (two distinct tables referencing the same shared table)
in a well-formed acyclic graph causes no error and no duplicate: the run
succeeds and the shared table appears exactly once in the result; moreover
`visit` on a table already `BLACK` returns immediately with the state and
the collector unchanged. -/
theorem C8_diamond {tables : Tables} (hwf : WellFormed tables) (hacy : Acyclic tables)
    {a b sh : String} (_hab : a ≠ b) (ha : edge tables a sh) (_hb : edge tables b sh) :
    (∃ res, topoSortTables tables = (res, none) ∧ res.count sh = 1) ∧
      (∀ (fuel : Nat) (s : DfsState) (t : String) (c : List String),
        s.nodeColor t = .BLACK → visit (fuel + 1) s t c = ⟨s, c, none⟩) := by
  obtain ⟨herr, hnd, hmem, _⟩ := topoSortTables_spec hwf hacy
  refine ⟨⟨(topoSortTables tables).fst, Prod.ext rfl herr, ?_⟩, ?_⟩
  · exact List.count_eq_one_of_mem hnd ((hmem sh).mpr (edge_target_mem hwf.2 ha))
  · intro fuel s t c hcol
    exact visit_black hcol fuel c

/-- Witness for C8 at the concrete diamond graph where `a` and `b` both
reference `c`. -/
theorem C8_witness :
    (∃ res, topoSortTables gDiamond = (res, none) ∧ res.count tblC = 1) ∧
      (∀ (fuel : Nat) (s : DfsState) (t : String) (c : List String),
        s.nodeColor t = .BLACK → visit (fuel + 1) s t c = ⟨s, c, none⟩) :=
  @C8_diamond gDiamond gDiamond_wf gDiamond_acyclic tblA tblB tblC (by decide)
    ⟨⟨[tblC]⟩, rfl, by decide⟩ ⟨⟨[tblC]⟩, rfl, by decide⟩

/-- C9: the empty graph (a table map with no entries) yields the empty
sequence and a nil error. -/
theorem C9_empty_graph : topoSortTables ([] : Tables) = ([], none) := rfl

/-- C10: neither `visit` nor the table loop of `topoSortTables` ever
writes the tables map: on success and on failure alike the `tables`
component of the threaded state is returned unchanged; only the
`nodeColor` map and the collector are written. -/
theorem C10_no_graph_mutation :
    ∀ (fuel : Nat) (s : DfsState) (t : String) (c keys : List String),
      (visit fuel s t c).state.tables = s.tables ∧
      (topoLoop fuel s keys c).state.tables = s.tables :=
  fun fuel s t c keys => ⟨visit_frame fuel s t c, topoLoop_frame fuel keys s c⟩

end Migrate
